import Mathlib

/-!
Verification development for the keyword matching and scoring engine of
`src/backend/keyword_matcher.py` (class `KeywordMatcher`).

Strings are modelled as `List Char` (`Str`).  Python's `str.lower` is modelled
per-character by `Char.toLower` (ASCII case mapping), `str.strip` / `\s` by the
six ASCII whitespace characters recognised by `re`'s `\s` on ASCII text.

The scoring function performs IEEE-754 binary64 arithmetic
(`(found_weight / total_weight) * 100` followed by `int` truncation).  That
pipeline is embedded exactly: `roundRatD a b` computes the binary64
nearest-even rounding of the rational `a / b` as a dyadic pair `(m, e)` with
value `m * 2 ^ e`, using integer arithmetic only (so that the kernel can
evaluate it); `pyFloatScore` chains the correctly-rounded division, the
correctly-rounded multiplication by 100, and the final truncation, exactly as
CPython evaluates `int((fw / tw) * 100)`.  Exponent consequences of binary64
overflow (ratios above `2 ^ 1024`, which require keyword lists of length at
least `2 ^ 1023`) are outside the model.  The proof layer relates the integer
pipeline to a rational description `roundB : ℚ → ℚ` of round-to-nearest-even.
-/

/-- Strings as explicit character lists. -/
abbrev Str := List Char

/-- Character data of a string literal. -/
def str (s : String) : Str := s.data

/-- Python `str.lower`, per character (ASCII range). -/
def lowerChar (c : Char) : Char := c.toLower

/-- The characters matched by `\s` (and stripped by `str.strip`) on ASCII text:
space, tab, newline, carriage return, vertical tab, form feed. -/
def isSpaceChar (c : Char) : Bool :=
  c = ' ' || c = '\t' || c = '\n' || c = '\r' || c = '\x0b' || c = '\x0c'

/-- Worker for `collapseWs`: `prevSpace` records whether the previous character
was part of a whitespace run (whose single replacement `' '` has already been
emitted). -/
def collapseGo (prevSpace : Bool) : Str → Str
  | [] => []
  | c :: cs =>
    if isSpaceChar c then
      if prevSpace then collapseGo true cs else ' ' :: collapseGo true cs
    else c :: collapseGo false cs

/-- `re.sub(r"\s+", " ", text)`: every maximal whitespace run becomes one space. -/
def collapseWs (l : Str) : Str := collapseGo false l

/-- Python `str.strip()`: remove leading and trailing whitespace. -/
def stripChars (l : Str) : Str :=
  ((l.dropWhile isSpaceChar).reverse.dropWhile isSpaceChar).reverse

/-- `KeywordMatcher.normalize_text`: lowercase, collapse whitespace runs to a
single space, strip. -/
def normalize_text (s : Str) : Str := stripChars (collapseWs (s.map lowerChar))

/-- `kw.lower().strip()`, the normalization used on single words and on
double-weight keywords (no whitespace collapsing). -/
def normKW (s : Str) : Str := stripChars (s.map lowerChar)

/-- Python `word.endswith(suf)`. -/
def endsW (w suf : Str) : Bool := suf.isSuffixOf w

/-- Python `word[:-k]` for `k ≥ 1`: all but the last `k` characters. -/
def cutR (w : Str) (k : ℕ) : Str := w.take (w.length - k)

/-- Python `word[-2] not in "aeiou"` (used only under `len(word) > 2`). -/
def penultNonVowel (w : Str) : Bool :=
  match w.dropLast.getLast? with
  | some c => !(['a', 'e', 'i', 'o', 'u'].contains c)
  | none => true

/-- The first (mutually exclusive) rule block of
`KeywordMatcher.get_word_variations`: singular forms from plural suffixes. -/
def singularRules (word : Str) (vs : Finset Str) : Finset Str :=
  if endsW word (str "ies") && decide (3 < word.length) then
    insert (cutR word 3 ++ str "y") vs
  else if endsW word (str "es") then
    if endsW word (str "sses") || endsW word (str "shes") || endsW word (str "ches")
        || endsW word (str "xes") || endsW word (str "zes") then
      insert (cutR word 2) vs
    else if endsW word (str "ves") && decide (3 < word.length) then
      insert (cutR word 3 ++ str "fe") (insert (cutR word 3 ++ str "f") (insert (cutR word 1) vs))
    else
      insert (cutR word 2) (insert (cutR word 1) vs)
  else if endsW word (str "s") && !endsW word (str "ss") then
    insert (cutR word 1) vs
  else vs

/-- The second (independent) rule block of `get_word_variations`: plural forms
from the (possibly already singular) base. -/
def pluralRules (word : Str) (vs : Finset Str) : Finset Str :=
  if endsW word (str "y") && decide (2 < word.length) && penultNonVowel word then
    insert (cutR word 1 ++ str "ies") vs
  else if endsW word (str "s") || endsW word (str "sh") || endsW word (str "ch")
      || endsW word (str "x") || endsW word (str "z") then
    insert (word ++ str "es") vs
  else if endsW word (str "f") then
    insert (cutR word 1 ++ str "ves") vs
  else if endsW word (str "fe") then
    insert (cutR word 2 ++ str "ves") vs
  else vs

/-- The final rule of `get_word_variations`: always add the simple `s` plural. -/
def addSimpleS (word : Str) (vs : Finset Str) : Finset Str :=
  if !endsW word (str "s") then insert (word ++ str "s") vs else vs

/-- The rule cascade of `get_word_variations` applied to an already-normalized
word, starting from the singleton `{word}`. -/
def variationsOf (word : Str) : Finset Str :=
  addSimpleS word (pluralRules word (singularRules word {word}))

/-- `KeywordMatcher.get_word_variations`: normalizes its argument by
`word.lower().strip()` and applies the rule cascade. -/
def get_word_variations (w : Str) : Finset Str := variationsOf (normKW w)

/-- Fuel-driven worker for `splitWs` (fuel makes it structurally recursive so
that the kernel can evaluate it). -/
def splitWsF : ℕ → Str → List Str
  | 0, _ => []
  | _ + 1, [] => []
  | f + 1, c :: cs =>
    if isSpaceChar c then splitWsF f cs
    else (c :: cs.takeWhile fun d => !isSpaceChar d)
      :: splitWsF f (cs.dropWhile fun d => !isSpaceChar d)

/-- Python `str.split()` with no arguments: maximal non-whitespace runs, empty
tokens dropped. -/
def splitWs (l : Str) : List Str := splitWsF (l.length + 1) l

/-- Joining tokens with single spaces (used to characterise `normalize_text`). -/
def unwords : List Str → Str
  | [] => []
  | [w] => w
  | w :: w2 :: ws => w ++ ' ' :: unwords (w2 :: ws)

/-- Python's `\w` on the texts at hand: ASCII letters, digits, underscore. -/
def isWordChar (c : Char) : Bool :=
  ('a' ≤ c && c ≤ 'z') || ('A' ≤ c && c ≤ 'Z') || ('0' ≤ c && c ≤ '9') || c = '_'

/-- Whether position `i` of `t` holds a word character (`false` past the end). -/
def wordAt (t : Str) (i : ℕ) : Bool :=
  match t.drop i with
  | [] => false
  | c :: _ => isWordChar c

/-- Regex `\b` at gap position `p` (between characters `p-1` and `p`). -/
def boundaryAt (t : Str) (p : ℕ) : Bool :=
  (if p = 0 then false else wordAt t (p - 1)) != wordAt t p

/-- The literal `w` occurs in `t` starting at index `i`. -/
def litAt (t w : Str) (i : ℕ) : Bool := decide ((t.drop i).take w.length = w)

/-- All characters of `t` in index range `[i, j)` are whitespace. -/
def allSpacesBetween (t : Str) (i j : ℕ) : Bool := ((t.drop i).take (j - i)).all isSpaceChar

/-- Matching of the escaped-literal word sequence of a generated pattern
(`\b w₀ \s+ w₁ \s+ … \b`) at start position `i` of `t`; the closing `\b` is
checked after the last word. -/
def matchWords (t : Str) : List Str → ℕ → Bool
  | [], i => boundaryAt t i
  | [w], i => litAt t w i && boundaryAt t (i + w.length)
  | w :: w2 :: ws, i =>
    litAt t w i &&
      (List.range (t.length + 1)).any fun j =>
        decide (i + w.length < j) && allSpacesBetween t (i + w.length) j
          && matchWords t (w2 :: ws) j

/-- `re.search` of a generated pattern, represented by its word sequence:
the pattern matches somewhere in `t` (with the opening `\b`). -/
def searchPhrase (t : Str) (ws : List Str) : Bool :=
  (List.range (t.length + 1)).any fun i => boundaryAt t i && matchWords t ws i

/-- `KeywordMatcher.generate_phrase_patterns`.  A pattern is represented by the
sequence of its escaped literal words (single words give one-element
sequences).  `none` models the `IndexError` raised by
`word_variation_sets[-1]` when the phrase contains no words. -/
def generate_phrase_patterns (phrase : Str) : Option (Finset (List Str)) :=
  match splitWs phrase with
  | [] => none
  | [w] => some ((get_word_variations w).image fun v => [v])
  | w1 :: w2 :: ws =>
    let words := w1 :: w2 :: ws
    let lastw := (w2 :: ws).getLast (List.cons_ne_nil _ _)
    some (insert words
      (((get_word_variations lastw).filter fun v => v ≠ lastw).image
        fun v => words.dropLast ++ [v]))

/-- Some pattern of the keyword matches the normalized text. -/
def keywordFound (t : Str) (pats : Finset (List Str)) : Bool :=
  decide (∃ p ∈ pats, searchPhrase t p = true)

/-- The keyword loop of `KeywordMatcher.find_keywords` over the already
normalized text `t`; `none` propagates the `IndexError` of pattern generation. -/
def findLoop (t : Str) : List Str → Option (List Str × List Str)
  | [] => some ([], [])
  | kw :: rest =>
    match generate_phrase_patterns (normalize_text kw), findLoop t rest with
    | some pats, some (f, m) =>
      if keywordFound t pats then some (kw :: f, m) else some (f, kw :: m)
    | _, _ => none

/-- `KeywordMatcher.find_keywords`. -/
def find_keywords (text : Str) (keywords : List Str) : Option (List Str × List Str) :=
  findLoop (normalize_text text) keywords

/-- The found/missing decision for one keyword (`false` also when pattern
generation raises; used only to characterise successful runs). -/
def kwMatches (t : Str) (kw : Str) : Bool :=
  match generate_phrase_patterns (normalize_text kw) with
  | some pats => keywordFound t pats
  | none => false

/-- Fuel-driven floor of `log₂` on `ℕ` (0 for inputs below 2). -/
def lg2F : ℕ → ℕ → ℕ
  | 0, _ => 0
  | f + 1, n => if n < 2 then 0 else lg2F f (n / 2) + 1

/-- Floor of `log₂ n` for `n ≥ 1`. -/
def lg2 (n : ℕ) : ℕ := lg2F n n

/-- Floor of `log₂ (a / b)` for `a, b ≥ 1`, by scaling `a` so that the
quotient is at least 1. -/
def ratLog2 (a b : ℕ) : ℤ := (lg2 (a * 2 ^ (lg2 b + 1) / b) : ℤ) - (lg2 b + 1)

/-- Nearest integer to `a / b` (`b > 0`), ties to even. -/
def rndNat (a b : ℕ) : ℕ :=
  let d := a / b
  let r := a % b
  if 2 * r < b then d else if b < 2 * r then d + 1 else if d % 2 = 0 then d else d + 1

/-- IEEE-754 binary64 round-to-nearest-even of the rational `a / b`
(`a, b ≥ 1`; `a = 0` gives zero), as a dyadic pair `(m, e)` of value
`m * 2 ^ e`.  The exponent of the unit in the last place is
`max (-1074) (⌊log₂ (a/b)⌋ - 52)` (normal numbers carry 53 significand bits,
subnormals bottom out at `2 ^ (-1074)`). -/
def roundRatD (a b : ℕ) : ℕ × ℤ :=
  if a = 0 then (0, 0)
  else
    let e : ℤ := max (-1074) (ratLog2 a b - 52)
    if 0 ≤ e then (rndNat a (b * 2 ^ e.toNat), e) else (rndNat (a * 2 ^ (-e).toNat) b, e)

/-- The dyadic value `m * 100` as a fraction (numerator, denominator). -/
def mul100Frac : ℕ × ℤ → ℕ × ℕ
  | (m, e) => if 0 ≤ e then (m * 100 * 2 ^ e.toNat, 1) else (m * 100, 2 ^ (-e).toNat)

/-- Floor (= truncation, values here are nonnegative) of a dyadic value. -/
def dyFloor : ℕ × ℤ → ℕ
  | (m, e) => if 0 ≤ e then m * 2 ^ e.toNat else m / 2 ^ (-e).toNat

/-- CPython's `int((fw / tw) * 100)` for nonnegative integers `fw` and `tw > 0`:
correctly-rounded binary64 division, correctly-rounded multiplication by 100,
truncation toward zero. -/
def pyFloatScore (fw tw : ℕ) : ℕ :=
  let p1 := roundRatD fw tw
  let p2 := mul100Frac p1
  dyFloor (roundRatD p2.1 p2.2)

/-- `KeywordMatcher.calculate_score`.  The two `foldl`s are the two weighting
loops of the source; the arithmetic tail is the binary64 pipeline. -/
def calculate_score (found_keywords all_keywords double_weight_keywords : List Str) : ℕ :=
  if all_keywords.length = 0 then 0
  else
    let dwset := (double_weight_keywords.map normKW).toFinset
    let total_weight :=
      all_keywords.foldl (fun acc kw => if normKW kw ∈ dwset then acc + 2 else acc + 1) 0
    let found_weight :=
      found_keywords.foldl (fun acc kw => if normKW kw ∈ dwset then acc + 2 else acc + 1) 0
    pyFloatScore found_weight total_weight

/-- `KeywordMatcher.analyze_resume`: find, then score the found list. -/
def analyze_resume (text : Str) (keywords double_weight_keywords : List Str) :
    Option (List Str × List Str × ℕ) :=
  match find_keywords text keywords with
  | some (f, m) => some (f, m, calculate_score f keywords double_weight_keywords)
  | none => none

/-- The weight a keyword contributes under a normalized double-weight set. -/
def kwWeight (dwset : Finset Str) (kw : Str) : ℕ := if normKW kw ∈ dwset then 2 else 1

/-- Total weight of a keyword list. -/
def wSum (dwset : Finset Str) (l : List Str) : ℕ := (l.map (kwWeight dwset)).sum

/-- Round half to even on `ℚ`, the rational counterpart of `rndNat`. -/
def rnd (x : ℚ) : ℤ :=
  if x - ⌊x⌋ < 1 / 2 then ⌊x⌋
  else if 1 / 2 < x - ⌊x⌋ then ⌊x⌋ + 1
  else if ⌊x⌋ % 2 = 0 then ⌊x⌋ else ⌊x⌋ + 1

/-- Exponent of the unit in the last place of a positive rational in binary64. -/
def ulpExp (q : ℚ) : ℤ := max (-1074) (Int.log 2 q - 52)

/-- Rational description of binary64 round-to-nearest-even (nonnegative
inputs; negative inputs are clamped to 0, they never occur here). -/
def roundB (q : ℚ) : ℚ :=
  if q ≤ 0 then 0 else (rnd (q / 2 ^ ulpExp q) : ℚ) * 2 ^ ulpExp q

/-- The value of a dyadic pair. -/
def dyVal (p : ℕ × ℤ) : ℚ := (p.1 : ℚ) * 2 ^ p.2

/-- Rules 1–3 of the §4.2 cascade as the spec states them (mutually
exclusive singularisation candidates). -/
def specSing (w : Str) : Finset Str :=
  if endsW w (str "ies") && decide (3 < w.length) then {cutR w 3 ++ str "y"}
  else if endsW w (str "es") then
    (if endsW w (str "sses") || endsW w (str "shes") || endsW w (str "ches")
        || endsW w (str "xes") || endsW w (str "zes") then {cutR w 2}
     else if endsW w (str "ves") && decide (3 < w.length) then
       {cutR w 1, cutR w 3 ++ str "f", cutR w 3 ++ str "fe"}
     else {cutR w 1, cutR w 2})
  else if endsW w (str "s") && !endsW w (str "ss") then {cutR w 1}
  else ∅

/-- Rule 4 of the §4.2 cascade (independent pluralisation candidates). -/
def specPlur (w : Str) : Finset Str :=
  if endsW w (str "y") && decide (2 < w.length) && penultNonVowel w then
    {cutR w 1 ++ str "ies"}
  else if endsW w (str "s") || endsW w (str "sh") || endsW w (str "ch")
      || endsW w (str "x") || endsW w (str "z") then {w ++ str "es"}
  else if endsW w (str "f") then {cutR w 1 ++ str "ves"}
  else if endsW w (str "fe") then {cutR w 2 ++ str "ves"}
  else ∅

/-- Rule 5 of the §4.2 cascade (simple `s` plural). -/
def specS (w : Str) : Finset Str :=
  if !endsW w (str "s") then {w ++ str "s"} else ∅

/-- The variant set described by §4.2 of the specification, written as the
spec states it: the base word, plus one of the mutually exclusive
singularisation rules 1–3, plus the independent pluralisation rule 4, plus
the simple `s` plural (rule 5). -/
def specVariations (w : Str) : Finset Str :=
  {w} ∪ specSing w ∪ specPlur w ∪ specS w

-- ===== Block A : characters, strip, variations =====

theorem char_toNat_ofNat {n : ℕ} (h : n.isValidChar) : (Char.ofNat n).toNat = n := by
  simp only [Char.ofNat, dif_pos h]
  simp [Char.ofNatAux, Char.toNat, UInt32.ofNat', UInt32.toNat, BitVec.toNat_ofNatLt]

theorem lowerChar_idem (c : Char) : lowerChar (lowerChar c) = lowerChar c := by
  unfold lowerChar
  simp only [Char.toLower]
  split
  · next h =>
    have hval : (c.toNat + 32).isValidChar := Or.inl (by omega)
    rw [char_toNat_ofNat hval, if_neg (by omega)]
  · rfl

theorem mem_dropWhile {α : Type} {p : α → Bool} {l : List α} {c : α}
    (h : c ∈ l.dropWhile p) : c ∈ l :=
  (List.dropWhile_suffix p).subset h

theorem mem_stripChars {l : Str} {c : Char} (h : c ∈ stripChars l) : c ∈ l := by
  unfold stripChars at h
  rw [List.mem_reverse] at h
  have h2 := mem_dropWhile h
  rw [List.mem_reverse] at h2
  exact mem_dropWhile h2

theorem dropWhile_head_false {α : Type} {p : α → Bool} {l : List α} {c : α} {cs : List α}
    (h : l.dropWhile p = c :: cs) : p c = false := by
  induction l with
  | nil => simp at h
  | cons a as ih =>
    rw [List.dropWhile_cons] at h
    split at h
    · exact ih h
    · next hp =>
      cases h
      simpa using hp

theorem dropWhile_head?_false {α : Type} {p : α → Bool} {l : List α} {c : α}
    (h : (l.dropWhile p).head? = some c) : p c = false := by
  cases hd : l.dropWhile p with
  | nil => rw [hd] at h; simp at h
  | cons a as =>
    rw [hd] at h
    simp only [List.head?_cons, Option.some.injEq] at h
    exact h ▸ dropWhile_head_false hd

theorem dropWhile_eq_self_of_head? {α : Type} {p : α → Bool} {l : List α}
    (h : ∀ c, l.head? = some c → p c = false) : l.dropWhile p = l := by
  cases l with
  | nil => rfl
  | cons a as =>
    rw [List.dropWhile_cons, h a rfl]
    simp

theorem dropWhile_idem {α : Type} (p : α → Bool) (l : List α) :
    (l.dropWhile p).dropWhile p = l.dropWhile p := by
  apply dropWhile_eq_self_of_head?
  intro c hc
  exact dropWhile_head?_false hc

theorem getLast?_of_suffix {α : Type} {l₁ l₂ : List α} {c : α}
    (h : l₁ <:+ l₂) (hc : l₁.getLast? = some c) : l₂.getLast? = some c := by
  obtain ⟨t, rfl⟩ := h
  rw [List.getLast?_append, hc]
  rfl

theorem stripChars_head?_false {l : Str} {c : Char}
    (h : (stripChars l).head? = some c) : isSpaceChar c = false := by
  unfold stripChars at h
  rw [List.head?_reverse] at h
  have hs : ((l.dropWhile isSpaceChar).reverse.dropWhile isSpaceChar) <:+
      (l.dropWhile isSpaceChar).reverse := List.dropWhile_suffix _
  have h2 := getLast?_of_suffix hs h
  rw [List.getLast?_reverse] at h2
  exact dropWhile_head?_false h2

theorem stripChars_getLast?_false {l : Str} {c : Char}
    (h : (stripChars l).getLast? = some c) : isSpaceChar c = false := by
  unfold stripChars at h
  rw [List.getLast?_reverse] at h
  exact dropWhile_head?_false h

theorem stripChars_eq_self {X : Str}
    (h1 : ∀ c, X.head? = some c → isSpaceChar c = false)
    (h2 : ∀ c, X.getLast? = some c → isSpaceChar c = false) : stripChars X = X := by
  unfold stripChars
  rw [dropWhile_eq_self_of_head? h1]
  rw [dropWhile_eq_self_of_head? (by
    intro c hc
    rw [List.head?_reverse] at hc
    exact h2 c hc)]
  exact List.reverse_reverse X

theorem stripChars_idem (l : Str) : stripChars (stripChars l) = stripChars l :=
  stripChars_eq_self (fun _ hc => stripChars_head?_false hc)
    (fun _ hc => stripChars_getLast?_false hc)

theorem map_id_of_fixed {α : Type} {f : α → α} {l : List α}
    (h : ∀ c ∈ l, f c = c) : l.map f = l := by
  induction l with
  | nil => rfl
  | cons a as ih =>
    simp only [List.map_cons, h a (List.mem_cons_self a as),
      ih fun c hc => h c (List.mem_cons_of_mem a hc)]

theorem map_lowerChar_fixed (s : Str) :
    (s.map lowerChar).map lowerChar = s.map lowerChar := by
  apply map_id_of_fixed
  intro c hc
  obtain ⟨c0, _, rfl⟩ := List.mem_map.mp hc
  exact lowerChar_idem c0

theorem normKW_idem (s : Str) : normKW (normKW s) = normKW s := by
  unfold normKW
  have hfix : (stripChars (s.map lowerChar)).map lowerChar = stripChars (s.map lowerChar) := by
    apply map_id_of_fixed
    intro c hc
    obtain ⟨c0, _, rfl⟩ := List.mem_map.mp (mem_stripChars hc)
    exact lowerChar_idem c0
  rw [hfix, stripChars_idem]

theorem subset_singularRules (word : Str) (vs : Finset Str) : vs ⊆ singularRules word vs := by
  unfold singularRules
  split_ifs <;> intro x hx <;>
    first
    | exact hx
    | (simp only [Finset.mem_insert]; tauto)

theorem subset_pluralRules (word : Str) (vs : Finset Str) : vs ⊆ pluralRules word vs := by
  unfold pluralRules
  split_ifs <;> intro x hx <;>
    first
    | exact hx
    | (simp only [Finset.mem_insert]; tauto)

theorem subset_addSimpleS (word : Str) (vs : Finset Str) : vs ⊆ addSimpleS word vs := by
  unfold addSimpleS
  split_ifs <;> intro x hx <;>
    first
    | exact hx
    | (simp only [Finset.mem_insert]; tauto)

theorem base_mem_variationsOf (word : Str) : word ∈ variationsOf word := by
  unfold variationsOf
  exact subset_addSimpleS _ _ (subset_pluralRules _ _ (subset_singularRules _ _
    (Finset.mem_singleton_self word)))

theorem singularRules_eq (word : Str) (vs : Finset Str) :
    singularRules word vs = vs ∪ specSing word := by
  unfold singularRules specSing
  split_ifs <;> ext x <;>
    simp only [Finset.mem_insert, Finset.mem_union, Finset.mem_singleton,
      Finset.not_mem_empty] <;> tauto

theorem pluralRules_eq (word : Str) (vs : Finset Str) :
    pluralRules word vs = vs ∪ specPlur word := by
  unfold pluralRules specPlur
  split_ifs <;> ext x <;>
    simp only [Finset.mem_insert, Finset.mem_union, Finset.mem_singleton,
      Finset.not_mem_empty] <;> tauto

theorem addSimpleS_eq (word : Str) (vs : Finset Str) :
    addSimpleS word vs = vs ∪ specS word := by
  unfold addSimpleS specS
  split_ifs <;> ext x <;>
    simp only [Finset.mem_insert, Finset.mem_union, Finset.mem_singleton,
      Finset.not_mem_empty] <;> tauto

theorem variationsOf_eq_spec (w : Str) : variationsOf w = specVariations w := by
  unfold variationsOf specVariations
  rw [singularRules_eq, pluralRules_eq, addSimpleS_eq]

-- ===== Claim theorems C3, C8, C10 =====

/-- C10: `get_word_variations` normalizes its argument itself, so its value at
any string `w` coincides with its value at `w.lower().strip()`. -/
theorem C10_variations_normalize_arg (w : Str) :
    get_word_variations w = get_word_variations (normKW w) := by
  unfold get_word_variations
  rw [normKW_idem]

/-- C8 counterexample: the claim quantifies over every string; for the
non-normalized word "Crane" the word itself is not among its variations
(only the lowercased forms are). -/
theorem C8_counterexample : (str "Crane") ∉ get_word_variations (str "Crane") := by decide

/-- C8 amended: the normalized form `w.lower().strip()` of the input always
belongs to the variation set. -/
theorem C8_base_word_membership (w : Str) : normKW w ∈ get_word_variations w :=
  base_mem_variationsOf (normKW w)

/-- C3: on normalized input (`w.lower().strip() = w`), `get_word_variations`
computes exactly the variant set described by the §4.2 cascade. -/
theorem C3_variant_cascade (w : Str) (h : normKW w = w) :
    get_word_variations w = specVariations w := by
  unfold get_word_variations
  rw [h]
  exact variationsOf_eq_spec w

/-- Witness for C3 at the concrete word "knives". -/
theorem C3_variant_cascade_witness :
    normKW (str "knives") = str "knives" ∧
      get_word_variations (str "knives") = specVariations (str "knives") :=
  ⟨by decide, C3_variant_cascade (str "knives") (by decide)⟩

-- ===== Block B : splitWs equations and the unwords characterization =====

theorem length_dropWhile_le {α : Type} (p : α → Bool) (l : List α) :
    (l.dropWhile p).length ≤ l.length :=
  (List.dropWhile_suffix p).length_le

theorem splitWsF_congr : ∀ f g : ℕ, ∀ l : Str, l.length < f → l.length < g →
    splitWsF f l = splitWsF g l := by
  intro f
  induction f with
  | zero => intro g l h _; omega
  | succ f ih =>
    intro g l hf hg
    match g, l with
    | 0, _ => omega
    | g + 1, [] => rfl
    | g + 1, c :: cs =>
      simp only [splitWsF]
      have hcs : cs.length < f := by simpa using hf
      have hcs2 : cs.length < g := by simpa using hg
      split
      · exact ih g cs hcs hcs2
      · have hd : (cs.dropWhile fun d => !isSpaceChar d).length ≤ cs.length :=
          length_dropWhile_le _ _
        rw [ih g _ (by omega) (by omega)]

theorem splitWs_nil : splitWs [] = [] := rfl

theorem splitWs_cons_space {c : Char} {cs : Str} (h : isSpaceChar c = true) :
    splitWs (c :: cs) = splitWs cs := by
  unfold splitWs
  rw [show splitWsF ((c :: cs).length + 1) (c :: cs)
      = if isSpaceChar c then splitWsF (cs.length + 1) cs
        else (c :: cs.takeWhile fun d => !isSpaceChar d)
          :: splitWsF (cs.length + 1) (cs.dropWhile fun d => !isSpaceChar d) from rfl, h]
  simp

theorem splitWs_cons_nonspace {c : Char} {cs : Str} (h : isSpaceChar c = false) :
    splitWs (c :: cs) = (c :: cs.takeWhile fun d => !isSpaceChar d)
      :: splitWs (cs.dropWhile fun d => !isSpaceChar d) := by
  unfold splitWs
  rw [show splitWsF ((c :: cs).length + 1) (c :: cs)
      = if isSpaceChar c then splitWsF (cs.length + 1) cs
        else (c :: cs.takeWhile fun d => !isSpaceChar d)
          :: splitWsF (cs.length + 1) (cs.dropWhile fun d => !isSpaceChar d) from rfl, h]
  simp only [Bool.false_eq_true, if_false, List.cons.injEq, true_and]
  exact splitWsF_congr _ _ _ (Nat.lt_succ_of_le (length_dropWhile_le _ _))
    (Nat.lt_succ_self _)

theorem splitWs_dropWhile_space (v : Str) :
    splitWs (v.dropWhile isSpaceChar) = splitWs v := by
  induction v with
  | nil => rfl
  | cons c cs ih =>
    by_cases hc : isSpaceChar c = true
    · rw [List.dropWhile_cons, hc, if_pos rfl, ih, splitWs_cons_space hc]
    · simp only [Bool.not_eq_true] at hc
      rw [List.dropWhile_cons, hc]
      simp

theorem splitWs_eq_nil_all_space {v : Str} (h : splitWs v = []) :
    ∀ c ∈ v, isSpaceChar c = true := by
  induction v with
  | nil => simp
  | cons c cs ih =>
    by_cases hc : isSpaceChar c = true
    · rw [splitWs_cons_space hc] at h
      intro d hd
      rcases List.mem_cons.mp hd with rfl | hd2
      · exact hc
      · exact ih h d hd2
    · simp only [Bool.not_eq_true] at hc
      rw [splitWs_cons_nonspace hc] at h
      simp at h

theorem dropWhile_eq_self_all {α : Type} {p : α → Bool} {l : List α}
    (h : ∀ a ∈ l, p a = false) : l.dropWhile p = l := by
  apply dropWhile_eq_self_of_head?
  intro c hc
  exact h c (List.mem_of_mem_head? hc)

theorem dropWhile_eq_nil_all {α : Type} {p : α → Bool} {l : List α}
    (h : ∀ a ∈ l, p a = true) : l.dropWhile p = [] :=
  List.dropWhile_eq_nil_iff.mpr h

theorem stripChars_of_head_nonspace {c : Char} {x : Str} (h : isSpaceChar c = false) :
    stripChars (c :: x) = ((c :: x).reverse.dropWhile isSpaceChar).reverse := by
  unfold stripChars
  rw [List.dropWhile_cons, h]
  simp

theorem rdrop_append {x y : Str} (h : (y.reverse.dropWhile isSpaceChar).reverse ≠ []) :
    ((x ++ y).reverse.dropWhile isSpaceChar).reverse
      = x ++ (y.reverse.dropWhile isSpaceChar).reverse := by
  rw [List.reverse_append, List.dropWhile_append]
  have hne : ¬(y.reverse.dropWhile isSpaceChar).isEmpty = true := by
    intro hempty
    rw [List.isEmpty_iff] at hempty
    rw [hempty] at h
    simp at h
  rw [if_neg hne, List.reverse_append, List.reverse_reverse]

theorem rdrop_ne_nil {y : Str} {c : Char} (hc : c ∈ y) (hns : isSpaceChar c = false) :
    (y.reverse.dropWhile isSpaceChar).reverse ≠ [] := by
  intro h
  have h2 : y.reverse.dropWhile isSpaceChar = [] := by
    have := congrArg List.reverse h
    rwa [List.reverse_reverse, List.reverse_nil] at this
  rw [List.dropWhile_eq_nil_iff] at h2
  have := h2 c (List.mem_reverse.mpr hc)
  rw [hns] at this
  exact Bool.false_ne_true this

theorem stripChars_all_nonspace {y : Str} (h : ∀ c ∈ y, isSpaceChar c = false) :
    stripChars y = y := by
  apply stripChars_eq_self
  · intro c hc
    exact h c (List.mem_of_mem_head? hc)
  · intro c hc
    exact h c (List.mem_of_mem_getLast? hc)

theorem stripChars_token_trailing {A s : Str} (hA : ∀ a ∈ A, isSpaceChar a = false)
    (hs : ∀ x ∈ s, isSpaceChar x = true) (hne : A ≠ []) : stripChars (A ++ s) = A := by
  match A with
  | [] => exact absurd rfl hne
  | a :: as =>
    rw [List.cons_append, stripChars_of_head_nonspace (hA a (List.mem_cons_self a as))]
    rw [show (a :: (as ++ s)) = (a :: as) ++ s from rfl]
    rw [List.reverse_append, List.dropWhile_append]
    rw [dropWhile_eq_nil_all (by
      intro x hx
      exact hs x (List.mem_reverse.mp hx))]
    simp only [List.isEmpty_nil, if_true]
    rw [dropWhile_eq_self_all (by
      intro x hx
      exact hA x (List.mem_reverse.mp hx))]
    exact List.reverse_reverse _

theorem collapseGo_true_eq (l : Str) :
    collapseGo true l = collapseGo false (l.dropWhile isSpaceChar) := by
  induction l with
  | nil => rfl
  | cons c cs ih =>
    by_cases h : isSpaceChar c = true
    · rw [List.dropWhile_cons, h]
      simp only [collapseGo, h, if_true]
      exact ih
    · rw [List.dropWhile_cons]
      simp only [Bool.not_eq_true] at h
      simp [collapseGo, h]

theorem collapseGo_token_front {tok : Str} (h : ∀ c ∈ tok, isSpaceChar c = false)
    (rest : Str) : collapseGo false (tok ++ rest) = tok ++ collapseGo false rest := by
  induction tok with
  | nil => rfl
  | cons c cs ih =>
    have hc := h c (List.mem_cons_self c cs)
    simp only [List.cons_append, collapseGo, hc, Bool.false_eq_true, if_false]
    simp only [List.append_eq]
    rw [ih fun d hd => h d (List.mem_cons_of_mem c hd)]

theorem stripChars_space_cons (v : Str) : stripChars (' ' :: v) = stripChars v := by
  unfold stripChars
  rw [List.dropWhile_cons]
  simp [isSpaceChar]

theorem mem_takeWhile {α : Type} {p : α → Bool} {l : List α} {c : α}
    (h : c ∈ l.takeWhile p) : c ∈ l ∧ p c = true := by
  induction l with
  | nil => simp at h
  | cons a as ih =>
    rw [List.takeWhile_cons] at h
    split at h
    · next hp =>
      rcases List.mem_cons.mp h with rfl | h2
      · exact ⟨List.mem_cons_self _ _, hp⟩
      · obtain ⟨hm, hq⟩ := ih h2
        exact ⟨List.mem_cons_of_mem _ hm, hq⟩
    · simp at h

theorem strip_collapse_eq_unwords : ∀ n : ℕ, ∀ u : Str, u.length ≤ n →
    stripChars (collapseWs u) = unwords (splitWs u) := by
  intro n
  induction n with
  | zero =>
    intro u hu
    rw [List.length_eq_zero.mp (Nat.le_zero.mp hu)]
    rfl
  | succ n ih =>
    intro u hu
    match u with
    | [] => rfl
    | c :: cs =>
      by_cases hc : isSpaceChar c = true
      · -- leading whitespace: one space is emitted and then stripped
        have h1 : collapseWs (c :: cs) = ' ' :: collapseWs (cs.dropWhile isSpaceChar) := by
          unfold collapseWs
          simp only [collapseGo, hc, if_true]
          rw [collapseGo_true_eq]
          simp
        rw [h1, stripChars_space_cons, splitWs_cons_space hc]
        rw [← splitWs_dropWhile_space cs]
        apply ih
        have := length_dropWhile_le isSpaceChar cs
        simp only [List.length_cons] at hu
        omega
      · -- a token starts here
        simp only [Bool.not_eq_true] at hc
        have htok : ∀ d ∈ c :: cs.takeWhile fun d => !isSpaceChar d, isSpaceChar d = false := by
          intro d hd
          rcases List.mem_cons.mp hd with rfl | hd2
          · exact hc
          · have := (mem_takeWhile hd2).2
            simpa using this
        have h1 : collapseWs (c :: cs)
            = (c :: cs.takeWhile fun d => !isSpaceChar d)
              ++ collapseWs (cs.dropWhile fun d => !isSpaceChar d) := by
          unfold collapseWs
          conv_lhs => rw [show c :: cs
            = (c :: cs.takeWhile fun d => !isSpaceChar d)
              ++ (cs.dropWhile fun d => !isSpaceChar d) by
            rw [List.cons_append, List.takeWhile_append_dropWhile]]
          exact collapseGo_token_front htok _
        rw [h1, splitWs_cons_nonspace hc]
        cases hrest : cs.dropWhile fun d => !isSpaceChar d with
        | nil =>
          rw [show collapseWs ([] : Str) = [] from rfl, List.append_nil, splitWs_nil]
          rw [stripChars_all_nonspace htok]
          rfl
        | cons d ds =>
          have hd : isSpaceChar d = true := by
            have := dropWhile_head_false hrest
            simpa using this
          have h2 : collapseWs (d :: ds) = ' ' :: collapseWs (ds.dropWhile isSpaceChar) := by
            unfold collapseWs
            simp only [collapseGo, hd, if_true]
            rw [collapseGo_true_eq]
            simp
          rw [h2, splitWs_cons_space hd, ← splitWs_dropWhile_space ds]
          have hlen : (ds.dropWhile isSpaceChar).length ≤ n := by
            have l1 : (cs.dropWhile fun d => !isSpaceChar d).length ≤ cs.length :=
              length_dropWhile_le _ _
            rw [hrest] at l1
            have l2 := length_dropWhile_le isSpaceChar ds
            simp only [List.length_cons] at hu l1
            omega
          have ihrest := ih (ds.dropWhile isSpaceChar) hlen
          cases hv : ds.dropWhile isSpaceChar with
          | nil =>
            rw [show collapseWs ([] : Str) = [] from rfl, splitWs_nil]
            rw [stripChars_token_trailing htok (by
              intro x hx
              rcases List.mem_singleton.mp hx with rfl
              rfl) (List.cons_ne_nil c _)]
            rfl
          | cons x xs =>
            have hx : isSpaceChar x = false := by
              have := dropWhile_head_false hv
              simpa using this
            rw [hv] at ihrest
            have h3 : collapseWs (x :: xs) = x :: collapseGo false xs := by
              simp [collapseWs, collapseGo, hx]
            rw [h3]
            have hne : ((x :: collapseGo false xs).reverse.dropWhile isSpaceChar).reverse ≠ [] :=
              rdrop_ne_nil (List.mem_cons_self _ _) hx
            have h4 : stripChars ((c :: cs.takeWhile fun d => !isSpaceChar d)
                  ++ ' ' :: x :: collapseGo false xs)
                = (c :: cs.takeWhile fun d => !isSpaceChar d)
                  ++ ' ' :: stripChars (x :: collapseGo false xs) := by
              rw [List.cons_append]
              rw [stripChars_of_head_nonspace hc]
              rw [show c :: ((cs.takeWhile fun d => !isSpaceChar d) ++ ' ' :: x :: collapseGo false xs)
                  = ((c :: cs.takeWhile fun d => !isSpaceChar d) ++ [' '])
                    ++ (x :: collapseGo false xs) by simp]
              rw [rdrop_append hne]
              rw [stripChars_of_head_nonspace hx]
              simp
            rw [h4]
            rw [h3] at ihrest
            rw [ihrest]
            rw [splitWs_cons_nonspace hx]
            rfl

-- ===== Block B2 : tokens, idempotence of normalization =====

theorem normalize_text_eq_unwords (s : Str) :
    normalize_text s = unwords (splitWs (s.map lowerChar)) :=
  strip_collapse_eq_unwords (s.map lowerChar).length _ le_rfl

theorem takeWhile_eq_self_all {α : Type} {p : α → Bool} {l : List α}
    (h : ∀ a ∈ l, p a = true) : l.takeWhile p = l := by
  induction l with
  | nil => rfl
  | cons a as ih =>
    rw [List.takeWhile_cons, h a (List.mem_cons_self a as)]
    simp only [if_true]
    rw [ih fun d hd => h d (List.mem_cons_of_mem a hd)]

theorem takeWhile_eq_nil_all {α : Type} {p : α → Bool} {l : List α}
    (h : ∀ a ∈ l, p a = false) : l.takeWhile p = [] := by
  cases l with
  | nil => rfl
  | cons a as =>
    rw [List.takeWhile_cons, h a (List.mem_cons_self a as)]
    simp

theorem splitWs_tokens_good : ∀ n : ℕ, ∀ u : Str, u.length ≤ n → ∀ tok ∈ splitWs u,
    tok ≠ [] ∧ ∀ c ∈ tok, isSpaceChar c = false := by
  intro n
  induction n with
  | zero =>
    intro u hu
    rw [List.length_eq_zero.mp (Nat.le_zero.mp hu)]
    intro tok htok
    rw [splitWs_nil] at htok
    simp at htok
  | succ n ih =>
    intro u hu tok htok
    match u with
    | [] =>
      rw [splitWs_nil] at htok
      simp at htok
    | c :: cs =>
      by_cases hc : isSpaceChar c = true
      · rw [splitWs_cons_space hc] at htok
        exact ih cs (by simpa using Nat.le_of_succ_le_succ (by simpa using hu)) tok htok
      · simp only [Bool.not_eq_true] at hc
        rw [splitWs_cons_nonspace hc] at htok
        rcases List.mem_cons.mp htok with rfl | htok2
        · refine ⟨List.cons_ne_nil _ _, ?_⟩
          intro d hd
          rcases List.mem_cons.mp hd with rfl | hd2
          · exact hc
          · simpa using (mem_takeWhile hd2).2
        · have hlen : (cs.dropWhile fun d => !isSpaceChar d).length ≤ n := by
            have := length_dropWhile_le (fun d => !isSpaceChar d) cs
            simp only [List.length_cons] at hu
            omega
          exact ih _ hlen tok htok2

theorem splitWs_tokens_mem : ∀ n : ℕ, ∀ u : Str, u.length ≤ n → ∀ tok ∈ splitWs u,
    ∀ c ∈ tok, c ∈ u := by
  intro n
  induction n with
  | zero =>
    intro u hu
    rw [List.length_eq_zero.mp (Nat.le_zero.mp hu)]
    intro tok htok
    rw [splitWs_nil] at htok
    simp at htok
  | succ n ih =>
    intro u hu tok htok d hd
    match u with
    | [] =>
      rw [splitWs_nil] at htok
      simp at htok
    | c :: cs =>
      by_cases hc : isSpaceChar c = true
      · rw [splitWs_cons_space hc] at htok
        exact List.mem_cons_of_mem c
          (ih cs (by simpa using Nat.le_of_succ_le_succ (by simpa using hu)) tok htok d hd)
      · simp only [Bool.not_eq_true] at hc
        rw [splitWs_cons_nonspace hc] at htok
        rcases List.mem_cons.mp htok with rfl | htok2
        · rcases List.mem_cons.mp hd with rfl | hd2
          · exact List.mem_cons_self _ _
          · exact List.mem_cons_of_mem c (mem_takeWhile hd2).1
        · have hlen : (cs.dropWhile fun d => !isSpaceChar d).length ≤ n := by
            have := length_dropWhile_le (fun d => !isSpaceChar d) cs
            simp only [List.length_cons] at hu
            omega
          exact List.mem_cons_of_mem c
            (mem_dropWhile (ih _ hlen tok htok2 d hd))

theorem splitWs_unwords {L : List Str}
    (h : ∀ tok ∈ L, tok ≠ [] ∧ ∀ c ∈ tok, isSpaceChar c = false) :
    splitWs (unwords L) = L := by
  induction L with
  | nil => rfl
  | cons t rest ih =>
    obtain ⟨hne, hns⟩ := h t (List.mem_cons_self t rest)
    match t, rest with
    | [], _ => exact absurd rfl hne
    | a :: as, [] =>
      show splitWs (a :: as) = [a :: as]
      rw [splitWs_cons_nonspace (hns a (List.mem_cons_self a as))]
      rw [takeWhile_eq_self_all (by
        intro d hd
        simp [hns d (List.mem_cons_of_mem a hd)])]
      rw [dropWhile_eq_nil_all (by
        intro d hd
        simp [hns d (List.mem_cons_of_mem a hd)])]
      rfl
    | a :: as, t2 :: ts =>
      show splitWs ((a :: as) ++ ' ' :: unwords (t2 :: ts)) = (a :: as) :: t2 :: ts
      rw [List.cons_append]
      rw [splitWs_cons_nonspace (hns a (List.mem_cons_self a as))]
      have hasall : ∀ d ∈ as, (fun x => !isSpaceChar x) d = true := by
        intro d hd
        simp [hns d (List.mem_cons_of_mem a hd)]
      have htake : (as ++ ' ' :: unwords (t2 :: ts)).takeWhile (fun x => !isSpaceChar x) = as := by
        rw [List.takeWhile_append]
        rw [takeWhile_eq_self_all hasall]
        simp only [if_pos rfl]
        rw [show ((' ' :: unwords (t2 :: ts)).takeWhile fun x => !isSpaceChar x) = [] by
          rw [List.takeWhile_cons]
          simp [isSpaceChar]]
        simp
      have hdrop : (as ++ ' ' :: unwords (t2 :: ts)).dropWhile (fun x => !isSpaceChar x)
          = ' ' :: unwords (t2 :: ts) := by
        rw [List.dropWhile_append]
        rw [dropWhile_eq_nil_all hasall]
        simp only [List.isEmpty_nil, if_true]
        rw [List.dropWhile_cons]
        simp [isSpaceChar]
      rw [htake, hdrop]
      rw [splitWs_cons_space (by simp [isSpaceChar])]
      rw [ih fun tok htok => h tok (List.mem_cons_of_mem (a :: as) htok)]

theorem mem_unwords {L : List Str} {c : Char} (h : c ∈ unwords L) :
    c = ' ' ∨ ∃ tok ∈ L, c ∈ tok := by
  induction L with
  | nil =>
    rw [show unwords [] = [] from rfl] at h
    simp at h
  | cons t rest ih =>
    match t, rest with
    | t, [] =>
      right
      exact ⟨t, List.mem_cons_self t [], h⟩
    | t, t2 :: ts =>
      rw [show unwords (t :: t2 :: ts) = t ++ ' ' :: unwords (t2 :: ts) from rfl] at h
      rcases List.mem_append.mp h with h1 | h2
      · right
        exact ⟨t, List.mem_cons_self _ _, h1⟩
      · rcases List.mem_cons.mp h2 with rfl | h3
        · left
          rfl
        · rcases ih h3 with h4 | ⟨tok, htok, hc⟩
          · exact Or.inl h4
          · exact Or.inr ⟨tok, List.mem_cons_of_mem t htok, hc⟩

theorem map_lower_normalize (s : Str) :
    (normalize_text s).map lowerChar = normalize_text s := by
  apply map_id_of_fixed
  intro c hc
  rw [normalize_text_eq_unwords] at hc
  rcases mem_unwords hc with rfl | ⟨tok, htok, hctok⟩
  · rfl
  · have hcm : c ∈ s.map lowerChar :=
      splitWs_tokens_mem (s.map lowerChar).length _ le_rfl tok htok c hctok
    obtain ⟨c0, _, rfl⟩ := List.mem_map.mp hcm
    exact lowerChar_idem c0

theorem splitWs_normalize (s : Str) :
    splitWs (normalize_text s) = splitWs (s.map lowerChar) := by
  rw [normalize_text_eq_unwords]
  exact splitWs_unwords (splitWs_tokens_good (s.map lowerChar).length _ le_rfl)

theorem normalize_text_idem (s : Str) :
    normalize_text (normalize_text s) = normalize_text s := by
  conv_lhs => rw [normalize_text_eq_unwords, map_lower_normalize, splitWs_normalize]
  rw [normalize_text_eq_unwords]

theorem splitWs_all_space {s : Str} (h : ∀ x ∈ s, isSpaceChar x = true) :
    splitWs s = [] := by
  induction s with
  | nil => rfl
  | cons c cs ih =>
    rw [splitWs_cons_space (h c (List.mem_cons_self c cs))]
    exact ih fun x hx => h x (List.mem_cons_of_mem c hx)

theorem splitWs_append_spaces : ∀ n : ℕ, ∀ v s : Str, v.length ≤ n →
    (∀ x ∈ s, isSpaceChar x = true) → splitWs (v ++ s) = splitWs v := by
  intro n
  induction n with
  | zero =>
    intro v s hv hs
    rw [List.length_eq_zero.mp (Nat.le_zero.mp hv)]
    rw [List.nil_append, splitWs_nil]
    exact splitWs_all_space hs
  | succ n ih =>
    intro v s hv hs
    match v with
    | [] =>
      rw [List.nil_append, splitWs_nil]
      exact splitWs_all_space hs
    | c :: cs =>
      by_cases hc : isSpaceChar c = true
      · rw [List.cons_append, splitWs_cons_space hc, splitWs_cons_space hc]
        exact ih cs s (by simpa using Nat.le_of_succ_le_succ (by simpa using hv)) hs
      · simp only [Bool.not_eq_true] at hc
        rw [List.cons_append, splitWs_cons_nonspace hc, splitWs_cons_nonspace hc]
        have htws : (s.takeWhile fun d => !isSpaceChar d) = [] := by
          apply takeWhile_eq_nil_all
          intro a ha
          simp [hs a ha]
        have hdws : (s.dropWhile fun d => !isSpaceChar d) = s := by
          apply dropWhile_eq_self_all
          intro a ha
          simp [hs a ha]
        have htake : ((cs ++ s).takeWhile fun d => !isSpaceChar d)
            = cs.takeWhile fun d => !isSpaceChar d := by
          rw [List.takeWhile_append]
          split
          · next hlength =>
            have : (cs.takeWhile fun d => !isSpaceChar d) = cs :=
              (List.takeWhile_sublist _).eq_of_length hlength
            rw [htws, this, List.append_nil]
          · rfl
        rw [htake]
        have hlen : (cs.dropWhile fun d => !isSpaceChar d).length ≤ n := by
          have := length_dropWhile_le (fun d => !isSpaceChar d) cs
          simp only [List.length_cons] at hv
          omega
        rw [List.dropWhile_append]
        split
        · next hEmpty =>
          rw [List.isEmpty_iff] at hEmpty
          rw [hEmpty, hdws, splitWs_nil, splitWs_all_space hs]
        · rw [ih _ s (by omega) hs]

theorem splitWs_stripChars (v : Str) : splitWs (stripChars v) = splitWs v := by
  have hA : v.dropWhile isSpaceChar
      = stripChars v ++ ((v.dropWhile isSpaceChar).reverse.takeWhile isSpaceChar).reverse := by
    unfold stripChars
    conv_lhs => rw [← List.reverse_reverse (v.dropWhile isSpaceChar)]
    rw [← List.reverse_append]
    congr 1
    exact (List.takeWhile_append_dropWhile _ _).symm
  have h1 : splitWs (v.dropWhile isSpaceChar) = splitWs (stripChars v) := by
    conv_lhs => rw [hA]
    exact splitWs_append_spaces (stripChars v).length (stripChars v) _ le_rfl (by
      intro x hx
      rw [List.mem_reverse] at hx
      exact (mem_takeWhile hx).2)
  rw [← h1, splitWs_dropWhile_space]

theorem normalize_text_eq_of_normKW {a b : Str} (h : normKW a = normKW b) :
    normalize_text a = normalize_text b := by
  rw [normalize_text_eq_unwords, normalize_text_eq_unwords]
  rw [← splitWs_stripChars (a.map lowerChar), ← splitWs_stripChars (b.map lowerChar)]
  unfold normKW at h
  rw [h]

-- ===== Claim theorem C9 =====

/-- C9: `normalize_text` is idempotent and total, mapping the empty string to
the empty string. -/
theorem C9_normalize_idempotent :
    (∀ s : Str, normalize_text (normalize_text s) = normalize_text s) ∧
      normalize_text [] = [] :=
  ⟨normalize_text_idem, rfl⟩

-- ===== Block C : pattern generation and find_keywords =====

theorem splitWs_ne_nil_of_mem {v : Str} {c : Char} (hc : c ∈ v)
    (hns : isSpaceChar c = false) : splitWs v ≠ [] := by
  intro h
  have := splitWs_eq_nil_all_space h c hc
  rw [hns] at this
  exact Bool.false_ne_true this

theorem generate_some {kw : Str} (h : normalize_text kw ≠ []) :
    ∃ pats, generate_phrase_patterns (normalize_text kw) = some pats := by
  obtain ⟨c, cs, hn⟩ : ∃ c cs, normalize_text kw = c :: cs := by
    cases hnt : normalize_text kw with
    | nil => exact absurd hnt h
    | cons c cs => exact ⟨c, cs, rfl⟩
  have hc : isSpaceChar c = false := by
    have hh : (stripChars (collapseWs (kw.map lowerChar))).head? = some c := by
      rw [show stripChars (collapseWs (kw.map lowerChar)) = normalize_text kw from rfl, hn]
      rfl
    exact stripChars_head?_false hh
  have hmem : c ∈ normalize_text kw := by
    rw [hn]
    exact List.mem_cons_self _ _
  have hne := splitWs_ne_nil_of_mem hmem hc
  rcases hs : splitWs (normalize_text kw) with _ | ⟨w, _ | ⟨w2, ws2⟩⟩
  · exact absurd hs hne
  · refine ⟨(get_word_variations w).image fun v => [v], ?_⟩
    unfold generate_phrase_patterns
    rw [hs]
  · refine ⟨insert (w :: w2 :: ws2)
      (((get_word_variations ((w2 :: ws2).getLast (List.cons_ne_nil _ _))).filter
        fun v => v ≠ (w2 :: ws2).getLast (List.cons_ne_nil _ _)).image
        fun v => (w :: w2 :: ws2).dropLast ++ [v]), ?_⟩
    unfold generate_phrase_patterns
    rw [hs]

theorem findLoop_some_eq {t : Str} : ∀ {kws f m : List Str},
    findLoop t kws = some (f, m) →
      f = kws.filter (kwMatches t) ∧ m = kws.filter fun k => !kwMatches t k := by
  intro kws
  induction kws with
  | nil =>
    intro f m h
    simp only [findLoop, Option.some.injEq, Prod.mk.injEq] at h
    obtain ⟨rfl, rfl⟩ := h
    exact ⟨rfl, rfl⟩
  | cons kw rest ih =>
    intro f m h
    simp only [findLoop] at h
    cases hg : generate_phrase_patterns (normalize_text kw) with
    | none =>
      rw [hg] at h
      cases hrec : findLoop t rest with
      | none => rw [hrec] at h; exact Option.noConfusion h
      | some fm => rw [hrec] at h; exact Option.noConfusion h
    | some pats =>
      rw [hg] at h
      cases hrec : findLoop t rest with
      | none => rw [hrec] at h; exact Option.noConfusion h
      | some fm =>
        obtain ⟨f0, m0⟩ := fm
        rw [hrec] at h
        have h2 : (if keywordFound t pats = true then some (kw :: f0, m0)
            else some (f0, kw :: m0)) = some (f, m) := h
        obtain ⟨hf0, hm0⟩ := ih hrec
        have hkm : kwMatches t kw = keywordFound t pats := by
          unfold kwMatches
          rw [hg]
        by_cases hfound : keywordFound t pats = true
        · rw [if_pos hfound] at h2
          simp only [Option.some.injEq, Prod.mk.injEq] at h2
          obtain ⟨rfl, rfl⟩ := h2
          rw [List.filter_cons, List.filter_cons, hkm, hfound]
          simp only [if_true, Bool.not_true, Bool.false_eq_true, if_false]
          exact ⟨by rw [hf0], by rw [hm0]⟩
        · rw [if_neg hfound] at h2
          simp only [Option.some.injEq, Prod.mk.injEq] at h2
          obtain ⟨rfl, rfl⟩ := h2
          simp only [Bool.not_eq_true] at hfound
          rw [List.filter_cons, List.filter_cons, hkm, hfound]
          simp only [Bool.false_eq_true, if_false, Bool.not_false, if_true]
          exact ⟨by rw [hf0], by rw [hm0]⟩

theorem findLoop_total {t : Str} : ∀ {kws : List Str},
    (∀ kw ∈ kws, normalize_text kw ≠ []) → ∃ f m, findLoop t kws = some (f, m) := by
  intro kws
  induction kws with
  | nil => exact fun _ => ⟨[], [], rfl⟩
  | cons kw rest ih =>
    intro h
    obtain ⟨pats, hg⟩ := generate_some (h kw (List.mem_cons_self kw rest))
    obtain ⟨f0, m0, hrec⟩ := ih fun k hk => h k (List.mem_cons_of_mem kw hk)
    have hstep : findLoop t (kw :: rest)
        = if keywordFound t pats = true then some (kw :: f0, m0) else some (f0, kw :: m0) := by
      simp only [findLoop, hg, hrec]
    by_cases hfound : keywordFound t pats = true
    · exact ⟨kw :: f0, m0, by rw [hstep, if_pos hfound]⟩
    · exact ⟨f0, kw :: m0, by rw [hstep, if_neg hfound]⟩

theorem length_filter_add_not {α : Type} (p : α → Bool) (l : List α) :
    (l.filter p).length + (l.filter fun a => !p a).length = l.length := by
  induction l with
  | nil => rfl
  | cons a as ih =>
    by_cases hp : p a = true
    · rw [List.filter_cons, List.filter_cons, hp]
      simp only [if_true, Bool.not_true, Bool.false_eq_true, if_false, List.length_cons]
      omega
    · simp only [Bool.not_eq_true] at hp
      rw [List.filter_cons, List.filter_cons, hp]
      simp only [Bool.false_eq_true, if_false, Bool.not_false, if_true, List.length_cons]
      omega

theorem count_filter_add_not {α : Type} [BEq α] [LawfulBEq α] (p : α → Bool) (l : List α)
    (k : α) : (l.filter p).count k + (l.filter fun a => !p a).count k = l.count k := by
  by_cases hp : p k = true
  · rw [List.count_filter hp]
    have h0 : (l.filter fun a => !p a).count k = 0 := by
      rw [List.count_eq_zero]
      intro hmem
      have hk := List.of_mem_filter hmem
      simp only [hp, Bool.not_true] at hk
      exact Bool.false_ne_true hk
    omega
  · simp only [Bool.not_eq_true] at hp
    have h1 : (l.filter fun a => !p a).count k = l.count k := by
      apply List.count_filter
      simp [hp]
    have h0 : (l.filter p).count k = 0 := by
      rw [List.count_eq_zero]
      intro hmem
      have hk := List.of_mem_filter hmem
      rw [hp] at hk
      exact Bool.false_ne_true hk
    omega

-- ===== Claim theorems C2, C4, C5 =====

/-- C2 counterexample: an empty keyword string does not match trivially; the
engine fails on it (`generate_phrase_patterns` hits `word_variation_sets[-1]`
with an empty word list, raising `IndexError`, modelled by `none`). -/
theorem C2_counterexample : find_keywords (str "hello") [[]] = none := by decide

/-- C2 amended: `find_keywords` is total exactly on keyword lists in which
every keyword normalizes to a non-empty string; an empty-normalizing keyword
makes the call fail instead of matching trivially. -/
theorem C2_total_on_nonempty (text : Str) (kws : List Str)
    (h : ∀ kw ∈ kws, normalize_text kw ≠ []) :
    ∃ f m, find_keywords text kws = some (f, m) :=
  findLoop_total h

/-- Witness for C2 at a concrete text and keyword list. -/
theorem C2_total_on_nonempty_witness :
    (∀ kw ∈ [str "alpha"], normalize_text kw ≠ []) ∧
      ∃ f m, find_keywords (str "some beta text") [str "alpha"] = some (f, m) :=
  ⟨by decide, C2_total_on_nonempty (str "some beta text") [str "alpha"] (by decide)⟩

/-- C4 counterexample: with a keyword consisting only of whitespace (which
normalizes to the empty string) `find_keywords` fails, so it does not return
a partition of the input list. -/
theorem C4_counterexample : find_keywords (str "resume text") [str "   "] = none := by decide

/-- C4 amended: whenever `find_keywords` returns, the two output lists
partition the input list: both are sublists (hence preserve the input order),
their lengths add up, and every keyword occurrence lands in exactly one of
the two (counted with multiplicity, verbatim). -/
theorem C4_partition (text : Str) (kws f m : List Str)
    (h : find_keywords text kws = some (f, m)) :
    f.Sublist kws ∧ m.Sublist kws ∧ f.length + m.length = kws.length ∧
      ∀ k, f.count k + m.count k = kws.count k := by
  obtain ⟨hf, hm⟩ := findLoop_some_eq h
  subst hf
  subst hm
  exact ⟨List.filter_sublist kws, List.filter_sublist kws,
    length_filter_add_not _ kws, fun k => count_filter_add_not _ kws k⟩

/-- Witness for C4 at a concrete run. -/
theorem C4_partition_witness :
    ([str "crane"] : List Str).Sublist [str "crane", str "excavator"] ∧
      ([str "excavator"] : List Str).Sublist [str "crane", str "excavator"] ∧
      ([str "crane"] : List Str).length + ([str "excavator"] : List Str).length
        = ([str "crane", str "excavator"] : List Str).length ∧
      ∀ k, ([str "crane"] : List Str).count k + ([str "excavator"] : List Str).count k
        = ([str "crane", str "excavator"] : List Str).count k :=
  C4_partition (str "a crane on site") [str "crane", str "excavator"]
    [str "crane"] [str "excavator"] (by decide)

/-- C5: for a phrase of at least two words, the generated pattern set is the
literal phrase together with one pattern per variant of the last word (those
differing from it), the variant replacing only the last word; interior words
are never varied.  Consequently the spec's concrete scenario holds:
"tower crane" is found in "I operate tower cranes daily" via the
plural-variant pattern. -/
theorem C5_phrase_patterns :
    (∀ (phrase w1 w2 : Str) (ws : List Str), splitWs phrase = w1 :: w2 :: ws →
      ∃ pats, generate_phrase_patterns phrase = some pats ∧
        (w1 :: w2 :: ws) ∈ pats ∧
        (∀ v ∈ get_word_variations ((w2 :: ws).getLast (List.cons_ne_nil _ _)),
          v ≠ (w2 :: ws).getLast (List.cons_ne_nil _ _) →
            ((w1 :: w2 :: ws).dropLast ++ [v]) ∈ pats) ∧
        (∀ p ∈ pats, ∃ v, p = (w1 :: w2 :: ws).dropLast ++ [v])) ∧
      find_keywords (str "I operate tower cranes daily") [str "tower crane"]
        = some ([str "tower crane"], []) := by
  constructor
  · intro phrase w1 w2 ws hsplit
    refine ⟨insert (w1 :: w2 :: ws)
      (((get_word_variations ((w2 :: ws).getLast (List.cons_ne_nil _ _))).filter
        fun v => v ≠ (w2 :: ws).getLast (List.cons_ne_nil _ _)).image
        fun v => (w1 :: w2 :: ws).dropLast ++ [v]), ?_, ?_, ?_, ?_⟩
    · unfold generate_phrase_patterns
      rw [hsplit]
    · exact Finset.mem_insert_self _ _
    · intro v hv hne
      apply Finset.mem_insert_of_mem
      exact Finset.mem_image_of_mem _ (Finset.mem_filter.mpr ⟨hv, hne⟩)
    · intro p hp
      rcases Finset.mem_insert.mp hp with rfl | hp2
      · exact ⟨(w2 :: ws).getLast (List.cons_ne_nil _ _), by
          rw [show (w1 :: w2 :: ws).dropLast ++ [(w2 :: ws).getLast (List.cons_ne_nil _ _)]
              = (w1 :: w2 :: ws).dropLast ++ [(w1 :: w2 :: ws).getLast (List.cons_ne_nil _ _)]
              from rfl]
          rw [List.dropLast_append_getLast]⟩
      · obtain ⟨v, _, rfl⟩ := Finset.mem_image.mp hp2
        exact ⟨v, rfl⟩
  · decide

/-- Witness for C5 at the phrase "tower crane". -/
theorem C5_phrase_patterns_witness :
    ∃ pats, generate_phrase_patterns (str "tower crane") = some pats ∧
      ([str "tower", str "crane"] : List Str) ∈ pats ∧
      (∀ v ∈ get_word_variations (([str "crane"] : List Str).getLast (List.cons_ne_nil _ _)),
        v ≠ ([str "crane"] : List Str).getLast (List.cons_ne_nil _ _) →
          (([str "tower", str "crane"] : List Str).dropLast ++ [v]) ∈ pats) ∧
      (∀ p ∈ pats, ∃ v, p = ([str "tower", str "crane"] : List Str).dropLast ++ [v]) :=
  C5_phrase_patterns.1 (str "tower crane") (str "tower") (str "crane") [] (by decide)

-- ===== Block D1 : integer log₂ and round-to-nearest-even on ℚ =====

theorem lg2F_char : ∀ f n : ℕ, 1 ≤ n → n ≤ f → 2 ^ lg2F f n ≤ n ∧ n < 2 ^ (lg2F f n + 1) := by
  intro f
  induction f with
  | zero => intro n h1 h2; omega
  | succ f ih =>
    intro n h1 h2
    by_cases hn : n < 2
    · have : n = 1 := by omega
      subst this
      simp [lg2F]
    · have h2' : n / 2 ≤ f := by omega
      have h1' : 1 ≤ n / 2 := by omega
      obtain ⟨ha, hb⟩ := ih (n / 2) h1' h2'
      rw [show lg2F (f + 1) n = lg2F f (n / 2) + 1 by simp [lg2F, hn]]
      constructor
      · calc 2 ^ (lg2F f (n / 2) + 1) = 2 * 2 ^ lg2F f (n / 2) := by ring
        _ ≤ 2 * (n / 2) := by omega
        _ ≤ n := by omega
      · calc n < 2 * (n / 2) + 2 := by omega
        _ ≤ 2 * 2 ^ (lg2F f (n / 2) + 1) := by omega
        _ = 2 ^ (lg2F f (n / 2) + 1 + 1) := by ring

theorem lg2_char {n : ℕ} (h : 1 ≤ n) : 2 ^ lg2 n ≤ n ∧ n < 2 ^ (lg2 n + 1) :=
  lg2F_char n n h le_rfl

theorem int_log2_eq {x : ℚ} {k : ℤ} (h0 : 0 < x) (h1 : 2 ^ k ≤ x) (h2 : x < 2 ^ (k + 1)) :
    Int.log 2 x = k := by
  have ha : (2:ℚ) ^ Int.log 2 x ≤ x := Int.zpow_log_le_self one_lt_two h0
  have hb : x < (2:ℚ) ^ (Int.log 2 x + 1) := Int.lt_zpow_succ_log_self one_lt_two x
  have hc : (2:ℚ) ^ k < 2 ^ (Int.log 2 x + 1) := lt_of_le_of_lt h1 hb
  have hd : (2:ℚ) ^ Int.log 2 x < 2 ^ (k + 1) := lt_of_le_of_lt ha h2
  have he := (zpow_lt_zpow_iff_right₀ (by norm_num : (1:ℚ) < 2)).mp hc
  have hf := (zpow_lt_zpow_iff_right₀ (by norm_num : (1:ℚ) < 2)).mp hd
  omega

theorem ratLog2_char {a b : ℕ} (ha : 0 < a) (hb : 0 < b) :
    (2:ℚ) ^ ratLog2 a b ≤ (a:ℚ) / b ∧ (a:ℚ) / b < 2 ^ (ratLog2 a b + 1) := by
  have hbq : (0:ℚ) < b := by exact_mod_cast hb
  have hb2N : b < 2 ^ (lg2 b + 1) := (lg2_char hb).2
  have hv1 : 1 ≤ a * 2 ^ (lg2 b + 1) / b := by
    rw [Nat.one_le_div_iff hb]
    calc b ≤ 2 ^ (lg2 b + 1) := le_of_lt hb2N
    _ ≤ a * 2 ^ (lg2 b + 1) := Nat.le_mul_of_pos_left _ ha
  obtain ⟨hL1, hL2⟩ := lg2_char hv1
  have hvlow : (a * 2 ^ (lg2 b + 1) / b) * b ≤ a * 2 ^ (lg2 b + 1) := Nat.div_mul_le_self _ _
  have hvhigh : a * 2 ^ (lg2 b + 1) < (a * 2 ^ (lg2 b + 1) / b + 1) * b := by
    have h0 := Nat.div_add_mod (a * 2 ^ (lg2 b + 1)) b
    have h1 : (a * 2 ^ (lg2 b + 1)) % b < b := Nat.mod_lt _ hb
    calc a * 2 ^ (lg2 b + 1)
        = b * (a * 2 ^ (lg2 b + 1) / b) + (a * 2 ^ (lg2 b + 1)) % b := h0.symm
      _ < b * (a * 2 ^ (lg2 b + 1) / b) + b := by omega
      _ = (a * 2 ^ (lg2 b + 1) / b + 1) * b := by ring
  -- the scaled quotient sits between consecutive powers of two
  have key1 : ((2:ℚ) ^ lg2 (a * 2 ^ (lg2 b + 1) / b) : ℚ) * b ≤ (a:ℚ) * 2 ^ (lg2 b + 1) := by
    calc ((2:ℚ) ^ lg2 (a * 2 ^ (lg2 b + 1) / b) : ℚ) * b
        ≤ ((a * 2 ^ (lg2 b + 1) / b : ℕ) : ℚ) * b := by
          have : ((2 ^ lg2 (a * 2 ^ (lg2 b + 1) / b) : ℕ) : ℚ)
              ≤ ((a * 2 ^ (lg2 b + 1) / b : ℕ) : ℚ) := by exact_mod_cast hL1
          push_cast at this ⊢
          exact mul_le_mul_of_nonneg_right this (le_of_lt hbq)
      _ ≤ (a:ℚ) * 2 ^ (lg2 b + 1) := by exact_mod_cast hvlow
  have key2 : (a:ℚ) * 2 ^ (lg2 b + 1) < 2 ^ (lg2 (a * 2 ^ (lg2 b + 1) / b) + 1) * b := by
    calc (a:ℚ) * 2 ^ (lg2 b + 1)
        < ((a * 2 ^ (lg2 b + 1) / b + 1 : ℕ) : ℚ) * b := by exact_mod_cast hvhigh
      _ ≤ 2 ^ (lg2 (a * 2 ^ (lg2 b + 1) / b) + 1) * b := by
          have : ((a * 2 ^ (lg2 b + 1) / b + 1 : ℕ) : ℚ)
              ≤ ((2 ^ (lg2 (a * 2 ^ (lg2 b + 1) / b) + 1) : ℕ) : ℚ) := by
            exact_mod_cast hL2
          push_cast at this ⊢
          exact mul_le_mul_of_nonneg_right this (le_of_lt hbq)
  constructor
  · unfold ratLog2
    rw [zpow_sub₀ (by norm_num : (2:ℚ) ≠ 0)]
    rw [div_le_div_iff₀ (by positivity) hbq]
    calc (2:ℚ) ^ (lg2 (a * 2 ^ (lg2 b + 1) / b) : ℤ) * b
        = (2:ℚ) ^ lg2 (a * 2 ^ (lg2 b + 1) / b) * b := by
          rw [zpow_natCast]
      _ ≤ (a:ℚ) * 2 ^ (lg2 b + 1) := key1
      _ = (a:ℚ) * 2 ^ ((lg2 b : ℤ) + 1) := by
          rw [show ((lg2 b : ℤ) + 1) = ((lg2 b + 1 : ℕ) : ℤ) by push_cast; ring, zpow_natCast]
  · unfold ratLog2
    rw [show (lg2 (a * 2 ^ (lg2 b + 1) / b) : ℤ) - (lg2 b + 1) + 1
        = (lg2 (a * 2 ^ (lg2 b + 1) / b) : ℤ) + 1 - (lg2 b + 1) by ring]
    rw [zpow_sub₀ (by norm_num : (2:ℚ) ≠ 0)]
    rw [div_lt_div_iff₀ hbq (by positivity)]
    calc (a:ℚ) * 2 ^ ((lg2 b : ℤ) + 1)
        = (a:ℚ) * 2 ^ (lg2 b + 1) := by
          rw [show ((lg2 b : ℤ) + 1) = ((lg2 b + 1 : ℕ) : ℤ) by push_cast; ring, zpow_natCast]
      _ < 2 ^ (lg2 (a * 2 ^ (lg2 b + 1) / b) + 1) * b := key2
      _ = (2:ℚ) ^ ((lg2 (a * 2 ^ (lg2 b + 1) / b) : ℤ) + 1) * b := by
          rw [show ((lg2 (a * 2 ^ (lg2 b + 1) / b) : ℤ) + 1)
              = ((lg2 (a * 2 ^ (lg2 b + 1) / b) + 1 : ℕ) : ℤ) by push_cast; ring, zpow_natCast]

theorem ratLog2_eq_log {a b : ℕ} (ha : 0 < a) (hb : 0 < b) :
    ratLog2 a b = Int.log 2 ((a:ℚ) / b) := by
  obtain ⟨h1, h2⟩ := ratLog2_char ha hb
  exact (int_log2_eq (by positivity) h1 h2).symm

-- ===== Block D2 : properties of rnd and the integer rounding bridge =====

theorem rnd_le_floor_add_one (x : ℚ) : rnd x ≤ ⌊x⌋ + 1 := by
  unfold rnd
  split_ifs <;> omega

theorem floor_le_rnd (x : ℚ) : ⌊x⌋ ≤ rnd x := by
  unfold rnd
  split_ifs <;> omega

theorem rnd_le {x : ℚ} {k : ℤ} (h : x ≤ (k:ℚ)) : rnd x ≤ k := by
  have hf : ⌊x⌋ ≤ k := by
    have := Int.floor_le_floor h
    rwa [Int.floor_intCast] at this
  rcases lt_or_eq_of_le hf with hlt | heq
  · have := rnd_le_floor_add_one x
    omega
  · unfold rnd
    split_ifs with h1 h2 h3
    · omega
    · exfalso
      have hfx : (⌊x⌋ : ℚ) = k := by exact_mod_cast heq
      linarith [hfx]
    · omega
    · exfalso
      have hfx : (⌊x⌋ : ℚ) = k := by exact_mod_cast heq
      linarith [hfx]

theorem rnd_ge {x : ℚ} {k : ℤ} (h : (k:ℚ) ≤ x) : k ≤ rnd x := by
  have hf : k ≤ ⌊x⌋ := Int.le_floor.mpr h
  have := floor_le_rnd x
  omega

theorem rnd_nonneg {x : ℚ} (h : 0 ≤ x) : 0 ≤ rnd x :=
  rnd_ge (by exact_mod_cast h)

theorem rnd_intCast (k : ℤ) : rnd ((k:ℚ)) = k :=
  le_antisymm (rnd_le le_rfl) (rnd_ge le_rfl)

theorem rnd_small {x : ℚ} (h0 : 0 ≤ x) (h : x < 1 / 2) : rnd x = 0 := by
  have hf : ⌊x⌋ = 0 := by
    rw [Int.floor_eq_zero_iff]
    constructor
    · exact h0
    · linarith
  unfold rnd
  rw [hf]
  rw [if_pos (by push_cast; linarith)]

theorem rnd_mono {x y : ℚ} (h : x ≤ y) : rnd x ≤ rnd y := by
  rcases lt_or_eq_of_le (Int.floor_le_floor h) with hf | hf
  · have h1 := rnd_le_floor_add_one x
    have h2 := floor_le_rnd y
    omega
  · have hx1 : (⌊x⌋ : ℚ) = (⌊y⌋ : ℚ) := by exact_mod_cast hf
    unfold rnd
    split_ifs <;> first
      | omega
      | (exfalso; linarith [hx1])

theorem rndNat_eq_rnd {a b : ℕ} (hb : 0 < b) : (rndNat a b : ℤ) = rnd ((a:ℚ) / b) := by
  have hbq : (0:ℚ) < b := by exact_mod_cast hb
  have hfl : ⌊(a:ℚ) / b⌋ = ((a / b : ℕ) : ℤ) := Rat.floor_natCast_div_natCast a b
  have hkey : (a : ℚ) = (b:ℚ) * ((a / b : ℕ) : ℚ) + ((a % b : ℕ) : ℚ) := by
    exact_mod_cast congrArg (fun n : ℕ => (n : ℚ)) (Nat.div_add_mod a b).symm
  have hmod : (a:ℚ) / b - ((a / b : ℕ) : ℚ) = ((a % b : ℕ) : ℚ) / b := by
    field_simp
    linarith
  have hc1 : ((a:ℚ) / b - (((a / b : ℕ) : ℤ) : ℚ) < 1 / 2) ↔ 2 * (a % b) < b := by
    rw [Int.cast_natCast, hmod, div_lt_div_iff₀ hbq (by norm_num : (0:ℚ) < 2), one_mul]
    rw [show ((a % b : ℕ) : ℚ) * 2 = ((2 * (a % b) : ℕ) : ℚ) by push_cast; ring]
    exact_mod_cast Iff.rfl
  have hc2 : (1 / 2 < (a:ℚ) / b - (((a / b : ℕ) : ℤ) : ℚ)) ↔ b < 2 * (a % b) := by
    rw [Int.cast_natCast, hmod, div_lt_div_iff₀ (by norm_num : (0:ℚ) < 2) hbq, one_mul]
    rw [show ((a % b : ℕ) : ℚ) * 2 = ((2 * (a % b) : ℕ) : ℚ) by push_cast; ring]
    exact_mod_cast Iff.rfl
  unfold rnd rndNat
  rw [hfl]
  by_cases h1 : 2 * (a % b) < b
  · rw [if_pos h1, if_pos (hc1.mpr h1)]
  · rw [if_neg h1, if_neg (fun hq => h1 (hc1.mp hq))]
    by_cases h2 : b < 2 * (a % b)
    · rw [if_pos h2, if_pos (hc2.mpr h2)]
      push_cast
      ring
    · rw [if_neg h2, if_neg (fun hq => h2 (hc2.mp hq))]
      by_cases h3 : a / b % 2 = 0
      · rw [if_pos h3, if_pos (by omega)]
      · rw [if_neg h3, if_neg (by omega)]
        push_cast
        ring

-- ===== Block D3 : the dyadic value of roundRatD is roundB =====

theorem roundRatD_val {a b : ℕ} (ha : 0 < a) (hb : 0 < b) :
    dyVal (roundRatD a b) = roundB ((a:ℚ) / b) := by
  have hbq : (0:ℚ) < b := by exact_mod_cast hb
  have hq : (0:ℚ) < (a:ℚ) / b := by positivity
  have hulp : ulpExp ((a:ℚ) / b) = max (-1074) (ratLog2 a b - 52) := by
    unfold ulpExp
    rw [ratLog2_eq_log ha hb]
  unfold roundB
  rw [if_neg (not_le.mpr hq), hulp]
  unfold roundRatD
  rw [if_neg (by omega : ¬ a = 0)]
  by_cases hce : (0:ℤ) ≤ max (-1074) (ratLog2 a b - 52)
  · rw [if_pos hce]
    unfold dyVal
    have hpow : ((2 ^ (max (-1074) (ratLog2 a b - 52)).toNat : ℕ) : ℚ)
        = (2:ℚ) ^ max (-1074) (ratLog2 a b - 52) := by
      push_cast
      rw [← zpow_natCast, Int.toNat_of_nonneg hce]
    have hb2 : 0 < b * 2 ^ (max (-1074) (ratLog2 a b - 52)).toNat := by positivity
    have h1 : ((rndNat a (b * 2 ^ (max (-1074) (ratLog2 a b - 52)).toNat) : ℕ) : ℚ)
        = ((rnd ((a:ℚ) / ((b * 2 ^ (max (-1074) (ratLog2 a b - 52)).toNat : ℕ) : ℚ)) : ℤ) : ℚ) := by
      exact_mod_cast congrArg (fun z : ℤ => (z:ℚ)) (rndNat_eq_rnd hb2)
    have harg : (a:ℚ) / ((b * 2 ^ (max (-1074) (ratLog2 a b - 52)).toNat : ℕ) : ℚ)
        = (a:ℚ) / b / 2 ^ max (-1074) (ratLog2 a b - 52) := by
      rw [div_div, ← hpow]
      push_cast
      ring_nf
    show ((rndNat a (b * 2 ^ (max (-1074) (ratLog2 a b - 52)).toNat) : ℕ) : ℚ)
        * 2 ^ max (-1074) (ratLog2 a b - 52)
      = ((rnd ((a:ℚ) / b / 2 ^ max (-1074) (ratLog2 a b - 52)) : ℤ) : ℚ)
        * 2 ^ max (-1074) (ratLog2 a b - 52)
    rw [h1, harg]
  · rw [if_neg hce]
    unfold dyVal
    have hkpos : (0:ℤ) ≤ -max (-1074) (ratLog2 a b - 52) := by omega
    have hpow : ((2 ^ (-max (-1074) (ratLog2 a b - 52)).toNat : ℕ) : ℚ)
        = (2:ℚ) ^ (-max (-1074) (ratLog2 a b - 52)) := by
      push_cast
      rw [← zpow_natCast, Int.toNat_of_nonneg hkpos]
    have h1 : ((rndNat (a * 2 ^ (-max (-1074) (ratLog2 a b - 52)).toNat) b : ℕ) : ℚ)
        = ((rnd (((a * 2 ^ (-max (-1074) (ratLog2 a b - 52)).toNat : ℕ) : ℚ) / b) : ℤ) : ℚ) := by
      exact_mod_cast congrArg (fun z : ℤ => (z:ℚ)) (rndNat_eq_rnd hb)
    have harg : ((a * 2 ^ (-max (-1074) (ratLog2 a b - 52)).toNat : ℕ) : ℚ) / b
        = (a:ℚ) / b / 2 ^ max (-1074) (ratLog2 a b - 52) := by
      rw [div_eq_mul_inv ((a:ℚ) / b), ← zpow_neg, ← hpow]
      push_cast
      ring_nf
    show ((rndNat (a * 2 ^ (-max (-1074) (ratLog2 a b - 52)).toNat) b : ℕ) : ℚ)
        * 2 ^ max (-1074) (ratLog2 a b - 52)
      = ((rnd ((a:ℚ) / b / 2 ^ max (-1074) (ratLog2 a b - 52)) : ℤ) : ℚ)
        * 2 ^ max (-1074) (ratLog2 a b - 52)
    rw [h1, harg]

-- ===== Block D4 : bounds and exact values of roundB =====

theorem roundB_nonneg (q : ℚ) : 0 ≤ roundB q := by
  unfold roundB
  split_ifs with h
  · exact le_rfl
  · have h0 : (0:ℚ) < q := not_le.mp h
    have h1 : 0 ≤ rnd (q / 2 ^ ulpExp q) := rnd_nonneg (by positivity)
    exact mul_nonneg (by exact_mod_cast h1) (le_of_lt (zpow_pos (by norm_num) _))

theorem roundB_zero : roundB 0 = 0 := by
  unfold roundB
  rw [if_pos le_rfl]

theorem roundB_exact {q : ℚ} (m : ℤ) (h0 : 0 < q) (h : q = (m:ℚ) * 2 ^ ulpExp q) :
    roundB q = q := by
  unfold roundB
  rw [if_neg (not_le.mpr h0)]
  set e := ulpExp q with he
  have hdiv : q / 2 ^ e = (m:ℚ) := by
    rw [h]
    field_simp
  rw [hdiv, rnd_intCast, ← h]

theorem roundB_le_mul {q : ℚ} {m : ℤ} (h0 : 0 < q) (h : q ≤ (m:ℚ) * 2 ^ ulpExp q) :
    roundB q ≤ (m:ℚ) * 2 ^ ulpExp q := by
  unfold roundB
  rw [if_neg (not_le.mpr h0)]
  have h2 : q / 2 ^ ulpExp q ≤ (m:ℚ) := by
    rw [div_le_iff₀ (zpow_pos (by norm_num) _)]
    exact h
  exact mul_le_mul_of_nonneg_right (by exact_mod_cast rnd_le h2)
    (le_of_lt (zpow_pos (by norm_num) _))

theorem two_cast_eq : ((2:ℕ) : ℚ) = (2:ℚ) := by norm_num

theorem ulpExp_nonpos {q : ℚ} (h0 : 0 < q) (h : q ≤ 2 ^ (52:ℤ)) : ulpExp q ≤ 0 := by
  unfold ulpExp
  have hlog : Int.log 2 q ≤ 52 := by
    by_contra hlt
    push_neg at hlt
    have h1 : (2:ℚ) ^ (53:ℤ) ≤ 2 ^ Int.log 2 q :=
      (zpow_le_zpow_iff_right₀ (by norm_num : (1:ℚ) < 2)).mpr (by omega)
    have h2 := Int.zpow_log_le_self (by norm_num : 1 < 2) h0
    rw [two_cast_eq] at h2
    have h3 : (2:ℚ) ^ (52:ℤ) < 2 ^ (53:ℤ) :=
      (zpow_lt_zpow_iff_right₀ (by norm_num : (1:ℚ) < 2)).mpr (by omega)
    linarith
  exact max_le (by norm_num) (by omega)

theorem roundB_le_nat {q : ℚ} {n : ℕ} (h0 : 0 ≤ q) (h : q ≤ (n:ℚ))
    (hn : (n:ℚ) ≤ 2 ^ (52:ℤ)) : roundB q ≤ (n:ℚ) := by
  rcases eq_or_lt_of_le h0 with heq | hq0
  · rw [← heq, roundB_zero]
    positivity
  · have hup : ulpExp q ≤ 0 := ulpExp_nonpos hq0 (le_trans h hn)
    have hpow1 : (2:ℚ) ^ (-(ulpExp q)).toNat * 2 ^ ulpExp q = 1 := by
      rw [← zpow_natCast ((2:ℚ)) (-(ulpExp q)).toNat, Int.toNat_of_nonneg (by omega),
        ← zpow_add₀ (by norm_num : (2:ℚ) ≠ 0)]
      simp
    have hm : (n:ℚ) = (((n : ℤ) * 2 ^ (-(ulpExp q)).toNat : ℤ) : ℚ) * 2 ^ ulpExp q := by
      push_cast
      rw [mul_assoc, hpow1, mul_one]
    calc roundB q ≤ (((n : ℤ) * 2 ^ (-(ulpExp q)).toNat : ℤ) : ℚ) * 2 ^ ulpExp q :=
          roundB_le_mul hq0 (by rw [← hm]; exact h)
      _ = (n:ℚ) := hm.symm

theorem ulpExp_one : ulpExp 1 = -52 := by
  unfold ulpExp
  rw [Int.log_one_right]
  decide

theorem roundB_one : roundB 1 = 1 := by
  apply roundB_exact (2 ^ 52) one_pos
  rw [ulpExp_one]
  push_cast
  rw [show (4503599627370496 : ℚ) = 2 ^ (52:ℤ) by norm_num]
  rw [← zpow_add₀ (by norm_num : (2:ℚ) ≠ 0)]
  norm_num

theorem int_log_100 : Int.log 2 (100:ℚ) = 6 := by
  apply int_log2_eq (by norm_num)
  · norm_num
  · norm_num

theorem ulpExp_100 : ulpExp 100 = -46 := by
  unfold ulpExp
  rw [int_log_100]
  decide

theorem roundB_100 : roundB 100 = 100 := by
  apply roundB_exact (100 * 2 ^ 46) (by norm_num)
  rw [ulpExp_100]
  push_cast
  rw [show (7036874417766400 : ℚ) = 100 * 2 ^ (46:ℤ) by norm_num]
  rw [mul_assoc, ← zpow_add₀ (by norm_num : (2:ℚ) ≠ 0)]
  norm_num

-- ===== Block D5 : monotonicity of roundB =====

theorem ulpExp_ge_neg (q : ℚ) : -1074 ≤ ulpExp q := le_max_left _ _

theorem ulpExp_ge_log (q : ℚ) : Int.log 2 q - 52 ≤ ulpExp q := le_max_right _ _

theorem ulpExp_cases (q : ℚ) :
    (ulpExp q = Int.log 2 q - 52 ∧ -1074 ≤ Int.log 2 q - 52)
      ∨ (ulpExp q = -1074 ∧ Int.log 2 q - 52 ≤ -1074) := by
  unfold ulpExp
  rcases le_total (Int.log 2 q - 52) (-1074) with h | h
  · exact Or.inr ⟨max_eq_left h, h⟩
  · exact Or.inl ⟨max_eq_right h, h⟩

theorem ulpExp_mono {x y : ℚ} (h0 : 0 < x) (h : x ≤ y) : ulpExp x ≤ ulpExp y := by
  have hlog : Int.log 2 x ≤ Int.log 2 y := Int.log_mono_right h0 h
  exact max_le_max le_rfl (by omega)

theorem cast_two_pow (k : ℕ) : (((2:ℤ) ^ k : ℤ) : ℚ) = (2:ℚ) ^ (k : ℤ) := by
  push_cast
  rw [← zpow_natCast]

theorem zpow_log_le_self_q {y : ℚ} (hy : 0 < y) : (2:ℚ) ^ Int.log 2 y ≤ y := by
  have h := Int.zpow_log_le_self (by norm_num : 1 < 2) hy
  rwa [two_cast_eq] at h

theorem lt_zpow_succ_log_self_q (y : ℚ) : y < (2:ℚ) ^ (Int.log 2 y + 1) := by
  have h := Int.lt_zpow_succ_log_self (by norm_num : 1 < 2) y
  rwa [two_cast_eq] at h

theorem roundB_mono {x y : ℚ} (h0 : 0 ≤ x) (hxy : x ≤ y) : roundB x ≤ roundB y := by
  rcases eq_or_lt_of_le h0 with heq | hx0
  · rw [← heq, roundB_zero]
    exact roundB_nonneg y
  · have hy0 : 0 < y := lt_of_lt_of_le hx0 hxy
    by_cases hee : ulpExp x = ulpExp y
    · unfold roundB
      rw [if_neg (not_le.mpr hx0), if_neg (not_le.mpr hy0), hee]
      have hdm : x / 2 ^ ulpExp y ≤ y / 2 ^ ulpExp y := by
        gcongr
      exact mul_le_mul_of_nonneg_right (by exact_mod_cast rnd_mono hdm)
        (le_of_lt (zpow_pos (by norm_num) _))
    · have hlt : ulpExp x < ulpExp y := lt_of_le_of_ne (ulpExp_mono hx0 hxy) hee
      have hy_unc : ulpExp y = Int.log 2 y - 52 := by
        rcases ulpExp_cases y with ⟨h, _⟩ | ⟨h, _⟩
        · exact h
        · have := ulpExp_ge_neg x
          omega
      have hLxy : Int.log 2 x < Int.log 2 y := by
        have h1 := ulpExp_ge_log x
        omega
      have hii : (2:ℚ) ^ Int.log 2 y ≤ roundB y := by
        unfold roundB
        rw [if_neg (not_le.mpr hy0)]
        have h1 : ((4503599627370496:ℤ) : ℚ) ≤ y / 2 ^ ulpExp y := by
          rw [show (((4503599627370496:ℤ)) : ℚ) = (2:ℚ) ^ (52:ℤ) by norm_num]
          rw [le_div_iff₀ (zpow_pos (by norm_num) _)]
          rw [← zpow_add₀ (by norm_num : (2:ℚ) ≠ 0)]
          rw [hy_unc]
          calc (2:ℚ) ^ (52 + (Int.log 2 y - 52)) = 2 ^ Int.log 2 y := by ring_nf
            _ ≤ y := zpow_log_le_self_q hy0
        have h4 : ((4503599627370496:ℤ) : ℚ) ≤ (rnd (y / 2 ^ ulpExp y) : ℚ) := by
          exact_mod_cast rnd_ge h1
        calc (2:ℚ) ^ Int.log 2 y = (2:ℚ) ^ (52:ℤ) * 2 ^ ulpExp y := by
              rw [← zpow_add₀ (by norm_num : (2:ℚ) ≠ 0), hy_unc]
              ring_nf
          _ ≤ (rnd (y / 2 ^ ulpExp y) : ℚ) * 2 ^ ulpExp y := by
              apply mul_le_mul_of_nonneg_right _ (le_of_lt (zpow_pos (by norm_num) _))
              calc (2:ℚ) ^ (52:ℤ) = ((4503599627370496:ℤ) : ℚ) := by norm_num
                _ ≤ _ := h4
      by_cases htiny : Int.log 2 x < -1075
      · have hclamp : ulpExp x = -1074 := by
          rcases ulpExp_cases x with ⟨h, h2⟩ | ⟨h, _⟩
          · omega
          · exact h
        have hxsmall : x < 2 ^ (-1075 : ℤ) := by
          have hstep : (2:ℚ) ^ (Int.log 2 x + 1) ≤ 2 ^ (-1075 : ℤ) :=
            (zpow_le_zpow_iff_right₀ (by norm_num : (1:ℚ) < 2)).mpr (by omega)
          exact lt_of_lt_of_le (lt_zpow_succ_log_self_q x) hstep
        have hhalf : x / 2 ^ ulpExp x < 1 / 2 := by
          rw [hclamp, div_lt_iff₀ (zpow_pos (by norm_num) _)]
          calc x < 2 ^ (-1075 : ℤ) := hxsmall
            _ = 1 / 2 * 2 ^ (-1074 : ℤ) := by
              rw [show (1:ℚ) / 2 = 2 ^ (-1 : ℤ) by norm_num]
              rw [← zpow_add₀ (by norm_num : (2:ℚ) ≠ 0)]
              norm_num
        have hzero : roundB x = 0 := by
          unfold roundB
          rw [if_neg (not_le.mpr hx0)]
          rw [rnd_small (by positivity) hhalf]
          simp
        rw [hzero]
        exact roundB_nonneg y
      · push_neg at htiny
        have hk : (0:ℤ) ≤ Int.log 2 x + 1 - ulpExp x := by
          rcases ulpExp_cases x with ⟨h, h2⟩ | ⟨h, _⟩ <;> omega
        have hmval : (((2:ℤ) ^ (Int.log 2 x + 1 - ulpExp x).toNat : ℤ) : ℚ) * 2 ^ ulpExp x
            = (2:ℚ) ^ (Int.log 2 x + 1) := by
          rw [cast_two_pow, ← zpow_add₀ (by norm_num : (2:ℚ) ≠ 0)]
          rw [Int.toNat_of_nonneg hk]
          ring_nf
        have hxle : x ≤ (((2:ℤ) ^ (Int.log 2 x + 1 - ulpExp x).toNat : ℤ) : ℚ) * 2 ^ ulpExp x := by
          rw [hmval]
          exact le_of_lt (lt_zpow_succ_log_self_q x)
        calc roundB x ≤ (((2:ℤ) ^ (Int.log 2 x + 1 - ulpExp x).toNat : ℤ) : ℚ) * 2 ^ ulpExp x :=
              roundB_le_mul hx0 hxle
          _ = (2:ℚ) ^ (Int.log 2 x + 1) := hmval
          _ ≤ (2:ℚ) ^ Int.log 2 y := by
              apply (zpow_le_zpow_iff_right₀ (by norm_num : (1:ℚ) < 2)).mpr
              omega
          _ ≤ roundB y := hii

-- ===== Block D6 : the integer score pipeline computes the rounded rational =====

theorem dyFloor_eq (p : ℕ × ℤ) : (dyFloor p : ℤ) = ⌊dyVal p⌋ := by
  obtain ⟨m, e⟩ := p
  show (((if (0:ℤ) ≤ e then m * 2 ^ e.toNat else m / 2 ^ (-e).toNat) : ℕ) : ℤ)
      = ⌊(m:ℚ) * 2 ^ e⌋
  by_cases he : (0:ℤ) ≤ e
  · rw [if_pos he]
    have hval : ((m:ℚ)) * 2 ^ e = ((m * 2 ^ e.toNat : ℕ) : ℚ) := by
      push_cast
      rw [← zpow_natCast ((2:ℚ)) e.toNat, Int.toNat_of_nonneg he]
    rw [hval, Int.floor_natCast]
  · rw [if_neg he]
    have hval : ((m:ℚ)) * 2 ^ e = (m:ℚ) / ((2 ^ (-e).toNat : ℕ) : ℚ) := by
      push_cast
      rw [← zpow_natCast ((2:ℚ)) (-e).toNat, Int.toNat_of_nonneg (by omega), zpow_neg]
      rw [div_eq_mul_inv, inv_inv]
    rw [hval, Rat.floor_natCast_div_natCast, Int.natCast_div]

theorem mul100Frac_eq (m : ℕ) (e : ℤ) :
    mul100Frac (m, e)
      = if (0:ℤ) ≤ e then (m * 100 * 2 ^ e.toNat, 1) else (m * 100, 2 ^ (-e).toNat) := rfl

theorem mul100_val (m : ℕ) (e : ℤ) :
    (((mul100Frac (m, e)).1 : ℕ) : ℚ) / (((mul100Frac (m, e)).2 : ℕ) : ℚ)
      = dyVal (m, e) * 100 := by
  rw [mul100Frac_eq]
  show _ = (m:ℚ) * 2 ^ e * 100
  by_cases he : (0:ℤ) ≤ e
  · rw [if_pos he]
    simp only
    push_cast
    rw [← zpow_natCast ((2:ℚ)) e.toNat, Int.toNat_of_nonneg he]
    rw [div_one]
    ring
  · rw [if_neg he]
    simp only
    push_cast
    rw [← zpow_natCast ((2:ℚ)) (-e).toNat, Int.toNat_of_nonneg (by omega), zpow_neg]
    rw [div_eq_mul_inv, inv_inv]
    ring

theorem pyFloatScore_zero (tw : ℕ) : pyFloatScore 0 tw = 0 := rfl

theorem pyFloatScore_eq {fw tw : ℕ} (htw : 0 < tw) :
    (pyFloatScore fw tw : ℤ) = ⌊roundB (roundB ((fw:ℚ) / tw) * 100)⌋ := by
  by_cases hfw : fw = 0
  · subst hfw
    rw [pyFloatScore_zero]
    rw [show ((0:ℕ):ℚ) = 0 by norm_num, zero_div, roundB_zero, zero_mul, roundB_zero]
    norm_num
  · have hfw0 : 0 < fw := Nat.pos_of_ne_zero hfw
    have h1 : dyVal (roundRatD fw tw) = roundB ((fw:ℚ) / tw) := roundRatD_val hfw0 htw
    rcases hp : roundRatD fw tw with ⟨m1, e1⟩
    rw [hp] at h1
    have hshow : pyFloatScore fw tw
        = dyFloor (roundRatD (mul100Frac (roundRatD fw tw)).1
            (mul100Frac (roundRatD fw tw)).2) := rfl
    rw [hshow, hp]
    by_cases hm1 : m1 = 0
    · subst hm1
      have hz : dyVal ((0:ℕ), e1) = 0 := by
        unfold dyVal
        simp
      rw [hz] at h1
      have ha2 : (mul100Frac ((0:ℕ), e1)).1 = 0 := by
        rw [mul100Frac_eq]
        split_ifs <;> simp
      rw [show roundRatD (mul100Frac ((0:ℕ), e1)).1 (mul100Frac ((0:ℕ), e1)).2
          = roundRatD 0 (mul100Frac ((0:ℕ), e1)).2 by rw [ha2]]
      rw [show roundRatD 0 (mul100Frac ((0:ℕ), e1)).2 = (0, 0) from rfl]
      rw [← h1, zero_mul, roundB_zero]
      rw [show dyFloor ((0:ℕ), (0:ℤ)) = 0 from rfl]
      norm_num
    · have hm1pos : 0 < m1 := Nat.pos_of_ne_zero hm1
      have ha2 : 0 < (mul100Frac (m1, e1)).1 := by
        rw [mul100Frac_eq]
        split_ifs <;> simp only <;> positivity
      have hb2 : 0 < (mul100Frac (m1, e1)).2 := by
        rw [mul100Frac_eq]
        split_ifs <;> simp only <;> positivity
      rw [dyFloor_eq]
      rw [roundRatD_val ha2 hb2]
      rw [mul100_val m1 e1]
      rw [h1]

theorem foldl_weight (dwset : Finset Str) (l : List Str) : ∀ n : ℕ,
    l.foldl (fun acc kw => if normKW kw ∈ dwset then acc + 2 else acc + 1) n
      = n + wSum dwset l := by
  induction l with
  | nil =>
    intro n
    simp [wSum]
  | cons kw rest ih =>
    intro n
    rw [List.foldl_cons, ih]
    unfold wSum kwWeight
    simp only [List.map_cons, List.sum_cons]
    split_ifs <;> omega

theorem length_le_wSum (dwset : Finset Str) (l : List Str) : l.length ≤ wSum dwset l := by
  induction l with
  | nil => simp [wSum]
  | cons kw rest ih =>
    unfold wSum kwWeight at ih ⊢
    simp only [List.map_cons, List.sum_cons, List.length_cons]
    split_ifs <;> omega

theorem wSum_pos {dwset : Finset Str} {l : List Str} (h : l ≠ []) : 0 < wSum dwset l := by
  have := length_le_wSum dwset l
  have : 0 < l.length := List.length_pos.mpr h
  omega

theorem wSum_sublist_le {dwset : Finset Str} {l1 l2 : List Str} (h : l1.Sublist l2) :
    wSum dwset l1 ≤ wSum dwset l2 := by
  unfold wSum
  exact List.Sublist.sum_le_sum (List.Sublist.map _ h) fun x _ => Nat.zero_le x

theorem wSum_nil_dw (l : List Str) :
    wSum (([] : List Str).map normKW).toFinset l = l.length := by
  induction l with
  | nil => rfl
  | cons kw rest ih =>
    unfold wSum kwWeight at ih ⊢
    simp only [List.map_cons, List.sum_cons]
    rw [if_neg (by simp)]
    simp only [List.length_cons]
    omega

theorem calculate_score_eq (found all dw : List Str) (h : all ≠ []) :
    (calculate_score found all dw : ℤ)
      = ⌊roundB (roundB ((wSum (dw.map normKW).toFinset found : ℚ)
          / (wSum (dw.map normKW).toFinset all : ℚ)) * 100)⌋ := by
  have hshow : calculate_score found all dw
      = if all.length = 0 then 0
        else pyFloatScore
          (found.foldl (fun acc kw =>
            if normKW kw ∈ (dw.map normKW).toFinset then acc + 2 else acc + 1) 0)
          (all.foldl (fun acc kw =>
            if normKW kw ∈ (dw.map normKW).toFinset then acc + 2 else acc + 1) 0) := rfl
  rw [hshow, if_neg (by simpa using h)]
  rw [foldl_weight, foldl_weight, Nat.zero_add, Nat.zero_add]
  exact pyFloatScore_eq (wSum_pos h)

theorem score_floor_mono {fw tw fw2 tw2 : ℕ}
    (hdiv : (fw:ℚ) / tw ≤ (fw2:ℚ) / tw2) :
    ⌊roundB (roundB ((fw:ℚ) / tw) * 100)⌋ ≤ ⌊roundB (roundB ((fw2:ℚ) / tw2) * 100)⌋ := by
  have h1 : roundB ((fw:ℚ) / tw) ≤ roundB ((fw2:ℚ) / tw2) :=
    roundB_mono (by positivity) hdiv
  have h2 : roundB ((fw:ℚ) / tw) * 100 ≤ roundB ((fw2:ℚ) / tw2) * 100 := by
    have := roundB_nonneg ((fw:ℚ) / tw)
    linarith
  have h3 := roundB_mono (mul_nonneg (roundB_nonneg _) (by norm_num)) h2
  exact Int.floor_le_floor h3

-- ===== Block D7 : double-weight bookkeeping for C7 =====

theorem kwWeight_insert (dwset : Finset Str) (kw x : Str) :
    kwWeight (insert (normKW kw) dwset) x
      = kwWeight dwset x
        + (if (decide (normKW x = normKW kw) && !decide (normKW x ∈ dwset)) = true
           then 1 else 0) := by
  unfold kwWeight
  by_cases h1 : normKW x = normKW kw
  · by_cases h2 : normKW x ∈ dwset
    · rw [if_pos (Finset.mem_insert.mpr (Or.inr h2)), if_pos h2]
      simp [h2]
    · rw [if_pos (Finset.mem_insert.mpr (Or.inl h1)), if_neg h2]
      have h3 : normKW kw ∉ dwset := h1 ▸ h2
      simp [h1, h2, h3]
  · by_cases h2 : normKW x ∈ dwset
    · rw [if_pos (Finset.mem_insert.mpr (Or.inr h2)), if_pos h2]
      simp [h2]
    · rw [if_neg (by
        rw [Finset.mem_insert]
        push_neg
        exact ⟨h1, h2⟩), if_neg h2]
      simp [h1]

theorem wSum_insert (dwset : Finset Str) (kw : Str) (l : List Str) :
    wSum (insert (normKW kw) dwset) l
      = wSum dwset l
        + l.countP fun x => decide (normKW x = normKW kw) && !decide (normKW x ∈ dwset) := by
  induction l with
  | nil => rfl
  | cons a rest ih =>
    unfold wSum at ih ⊢
    simp only [List.map_cons, List.sum_cons, List.countP_cons]
    rw [ih, kwWeight_insert]
    split_ifs <;> omega

theorem kwMatches_congr {t x y : Str} (h : normalize_text x = normalize_text y) :
    kwMatches t x = kwMatches t y := by
  unfold kwMatches
  rw [h]

-- ===== Claim theorems C1, C6, C7 =====

/-- C1 counterexample: with foundWeight 29 and totalWeight 100 the code returns
28, not the exact floor 29 = ⌊100·29/100⌋.  The binary64 evaluation of
`(29 / 100) * 100` is 28.999999999999996…, and `int` truncation yields 28. -/
theorem C1_counterexample :
    calculate_score (List.replicate 29 (str "k")) (List.replicate 100 (str "k")) [] = 28 ∧
      (28 : ℤ) ≠ ⌊(100 * (29:ℚ)) / 100⌋ := by
  constructor
  · decide
  · norm_num

/-- C1 amended: `calculate_score` returns the truncation of the IEEE-754
binary64 evaluation of `(foundWeight / totalWeight) * 100` (correctly rounded
division, then correctly rounded multiplication), with the weights computed as
the claim states (2 for keywords whose lowercased-stripped form is in the
normalized double-weight set, 1 otherwise).  This does not always equal the
exact rational floor. -/
theorem C1_float_score (found all dw : List Str) (h : all ≠ []) :
    (calculate_score found all dw : ℤ)
      = ⌊roundB (roundB ((wSum (dw.map normKW).toFinset found : ℚ)
          / (wSum (dw.map normKW).toFinset all : ℚ)) * 100)⌋ :=
  calculate_score_eq found all dw h

/-- Witness for C1 at a concrete scoring run. -/
theorem C1_float_score_witness :
    (calculate_score [str "welding"] [str "welding", str "rigging"] [] : ℤ)
      = ⌊roundB (roundB
          ((wSum (([] : List Str).map normKW).toFinset [str "welding"] : ℚ)
            / (wSum (([] : List Str).map normKW).toFinset
                [str "welding", str "rigging"] : ℚ)) * 100)⌋ :=
  C1_float_score [str "welding"] [str "welding", str "rigging"] [] (by decide)

/-- C6 counterexample: the claim quantifies over every found list; a found
list that repeats a keyword more often than the all-keywords list pushes the
score above 100 (here 200). -/
theorem C6_counterexample :
    ¬ calculate_score [str "a", str "a"] [str "a"] [] ≤ 100 := by decide

/-- C6 amended: when the found list is a sublist of the all-keywords list (as
in every analyze run) the score lies in [0, 100] (the result type is ℕ, so 0
is a lower bound by construction); the empty found list always scores 0; and a
fully-found keyword list with no double-weight keywords scores exactly 100. -/
theorem C6_score_bounds :
    (∀ found all dw : List Str, found.Sublist all → calculate_score found all dw ≤ 100) ∧
      (∀ all dw : List Str, calculate_score [] all dw = 0) ∧
      (∀ kws : List Str, kws ≠ [] → calculate_score kws kws [] = 100) := by
  refine ⟨?_, ?_, ?_⟩
  · intro found all dw hsub
    by_cases hall : all = []
    · subst hall
      have : found = [] := List.sublist_nil.mp hsub
      subst this
      rw [show calculate_score [] [] dw = 0 from rfl]
      omega
    · have hcast : (calculate_score found all dw : ℤ) ≤ 100 := by
        rw [calculate_score_eq found all dw hall]
        have htw : 0 < wSum (dw.map normKW).toFinset all := wSum_pos hall
        have hfw_le : wSum (dw.map normKW).toFinset found
            ≤ wSum (dw.map normKW).toFinset all := wSum_sublist_le hsub
        have htwq : (0:ℚ) < (wSum (dw.map normKW).toFinset all : ℚ) := by
          exact_mod_cast htw
        have hq1 : (wSum (dw.map normKW).toFinset found : ℚ)
            / (wSum (dw.map normKW).toFinset all : ℚ) ≤ 1 := by
          rw [div_le_one htwq]
          exact_mod_cast hfw_le
        have hq0 : (0:ℚ) ≤ (wSum (dw.map normKW).toFinset found : ℚ)
            / (wSum (dw.map normKW).toFinset all : ℚ) := by positivity
        have hr1 : roundB ((wSum (dw.map normKW).toFinset found : ℚ)
            / (wSum (dw.map normKW).toFinset all : ℚ)) ≤ ((1:ℕ):ℚ) := by
          apply roundB_le_nat hq0 (by push_cast; exact hq1)
          norm_num
        have hr0 := roundB_nonneg ((wSum (dw.map normKW).toFinset found : ℚ)
            / (wSum (dw.map normKW).toFinset all : ℚ))
        have hm1 : roundB ((wSum (dw.map normKW).toFinset found : ℚ)
            / (wSum (dw.map normKW).toFinset all : ℚ)) * 100 ≤ ((100:ℕ):ℚ) := by
          push_cast at hr1 ⊢
          linarith
        have hm0 : (0:ℚ) ≤ roundB ((wSum (dw.map normKW).toFinset found : ℚ)
            / (wSum (dw.map normKW).toFinset all : ℚ)) * 100 := by positivity
        have hfin : roundB (roundB ((wSum (dw.map normKW).toFinset found : ℚ)
            / (wSum (dw.map normKW).toFinset all : ℚ)) * 100) ≤ ((100:ℕ):ℚ) := by
          apply roundB_le_nat hm0 hm1
          norm_num
        push_cast at hfin
        calc ⌊roundB (roundB ((wSum (dw.map normKW).toFinset found : ℚ)
              / (wSum (dw.map normKW).toFinset all : ℚ)) * 100)⌋ ≤ ⌊(100:ℚ)⌋ :=
              Int.floor_le_floor hfin
          _ = 100 := by norm_num
      exact_mod_cast hcast
  · intro all dw
    by_cases hall : all.length = 0
    · have hshow : calculate_score [] all dw
          = if all.length = 0 then 0
            else pyFloatScore
              (([] : List Str).foldl (fun acc kw =>
                if normKW kw ∈ (dw.map normKW).toFinset then acc + 2 else acc + 1) 0)
              (all.foldl (fun acc kw =>
                if normKW kw ∈ (dw.map normKW).toFinset then acc + 2 else acc + 1) 0) := rfl
      rw [hshow, if_pos hall]
    · have hshow : calculate_score [] all dw
          = if all.length = 0 then 0
            else pyFloatScore
              (([] : List Str).foldl (fun acc kw =>
                if normKW kw ∈ (dw.map normKW).toFinset then acc + 2 else acc + 1) 0)
              (all.foldl (fun acc kw =>
                if normKW kw ∈ (dw.map normKW).toFinset then acc + 2 else acc + 1) 0) := rfl
      rw [hshow, if_neg hall]
      exact pyFloatScore_zero _
  · intro kws hne
    have hcast : (calculate_score kws kws [] : ℤ) = 100 := by
      rw [calculate_score_eq kws kws [] hne]
      rw [wSum_nil_dw]
      have hlen : (0:ℚ) < (kws.length : ℚ) := by
        have := List.length_pos.mpr hne
        exact_mod_cast this
      rw [div_self (ne_of_gt hlen), roundB_one, one_mul, roundB_100]
      norm_num
    exact_mod_cast hcast

/-- Witness for C6 at a concrete sublist. -/
theorem C6_score_bounds_witness :
    calculate_score [str "crane"] [str "crane", str "rigger"] [] ≤ 100 :=
  C6_score_bounds.1 [str "crane"] [str "crane", str "rigger"] [] (by decide)

/-- C7: in any analyze run, adding a keyword from the found list to the
double-weight list never decreases the score, and adding a keyword from the
missing list never increases it.  The proof tracks the binary64 pipeline: the
weighted ratio moves weakly in the right direction and binary64 rounding and
truncation are monotone. -/
theorem C7_double_weight_monotone (text kw : Str) (kws dw f m : List Str) (s : ℕ)
    (h : analyze_resume text kws dw = some (f, m, s)) :
    (kw ∈ f → s ≤ calculate_score f kws (kw :: dw)) ∧
      (kw ∈ m → calculate_score f kws (kw :: dw) ≤ s) := by
  unfold analyze_resume at h
  cases hfind : find_keywords text kws with
  | none =>
    rw [hfind] at h
    exact Option.noConfusion h
  | some fm =>
    obtain ⟨f0, m0⟩ := fm
    rw [hfind] at h
    simp only [Option.some.injEq, Prod.mk.injEq] at h
    obtain ⟨rfl, rfl, rfl⟩ := h
    obtain ⟨hf, hm⟩ := findLoop_some_eq hfind
    by_cases hkws : kws = []
    · subst hkws
      constructor
      · intro hkw
        rw [hf] at hkw
        simp at hkw
      · intro hkw
        rw [hm] at hkw
        simp at hkw
    · have hdw' : ((kw :: dw).map normKW).toFinset
          = insert (normKW kw) ((dw.map normKW).toFinset) := by
        simp [List.map_cons, List.toFinset_cons]
      have htw : 0 < wSum ((dw.map normKW).toFinset) kws := wSum_pos hkws
      have hcs := calculate_score_eq f0 kws dw hkws
      have hcs' := calculate_score_eq f0 kws (kw :: dw) hkws
      rw [hdw'] at hcs'
      rw [wSum_insert, wSum_insert] at hcs'
      have hfsub : f0.Sublist kws := by
        rw [hf]
        exact List.filter_sublist kws
      have hfw_le : wSum ((dw.map normKW).toFinset) f0
          ≤ wSum ((dw.map normKW).toFinset) kws := wSum_sublist_le hfsub
      constructor
      · intro hkw
        have hpkw : kwMatches (normalize_text text) kw = true := by
          rw [hf] at hkw
          exact List.of_mem_filter hkw
        have hcount : (f0.countP fun x => decide (normKW x = normKW kw)
              && !decide (normKW x ∈ (dw.map normKW).toFinset))
            = kws.countP fun x => decide (normKW x = normKW kw)
              && !decide (normKW x ∈ (dw.map normKW).toFinset) := by
          rw [hf, List.countP_filter]
          apply List.countP_congr
          intro x hx
          constructor
          · intro hq
            simp only [Bool.and_eq_true] at hq ⊢
            exact hq.1
          · intro hq
            simp only [Bool.and_eq_true] at hq ⊢
            refine ⟨hq, ?_⟩
            have hnx : normKW x = normKW kw := of_decide_eq_true hq.1
            rw [kwMatches_congr (normalize_text_eq_of_normKW hnx)]
            exact hpkw
        rw [hcount] at hcs'
        have hmono : (calculate_score f0 kws dw : ℤ)
            ≤ (calculate_score f0 kws (kw :: dw) : ℤ) := by
          rw [hcs, hcs']
          apply score_floor_mono
          have hb : 0 < wSum ((dw.map normKW).toFinset) kws
              + kws.countP (fun x => decide (normKW x = normKW kw)
                && !decide (normKW x ∈ (dw.map normKW).toFinset)) := by omega
          rw [div_le_div_iff₀ (by exact_mod_cast htw) (by exact_mod_cast hb)]
          have hkey : wSum ((dw.map normKW).toFinset) f0
              * (wSum ((dw.map normKW).toFinset) kws
                + kws.countP (fun x => decide (normKW x = normKW kw)
                  && !decide (normKW x ∈ (dw.map normKW).toFinset)))
            ≤ (wSum ((dw.map normKW).toFinset) f0
                + kws.countP (fun x => decide (normKW x = normKW kw)
                  && !decide (normKW x ∈ (dw.map normKW).toFinset)))
              * wSum ((dw.map normKW).toFinset) kws := by
            have h1 : wSum ((dw.map normKW).toFinset) f0
                * kws.countP (fun x => decide (normKW x = normKW kw)
                  && !decide (normKW x ∈ (dw.map normKW).toFinset))
              ≤ wSum ((dw.map normKW).toFinset) kws
                * kws.countP (fun x => decide (normKW x = normKW kw)
                  && !decide (normKW x ∈ (dw.map normKW).toFinset)) :=
              Nat.mul_le_mul_right _ hfw_le
            nlinarith
          exact_mod_cast hkey
        exact_mod_cast hmono
      · intro hkw
        have hpkw : kwMatches (normalize_text text) kw = false := by
          rw [hm] at hkw
          have := List.of_mem_filter hkw
          simpa using this
        have hcount : (f0.countP fun x => decide (normKW x = normKW kw)
              && !decide (normKW x ∈ (dw.map normKW).toFinset)) = 0 := by
          rw [hf, List.countP_filter, List.countP_eq_zero]
          intro x hx hq
          simp only [Bool.and_eq_true] at hq
          obtain ⟨⟨hq1, _⟩, hq2⟩ := hq
          have hnx : normKW x = normKW kw := of_decide_eq_true hq1
          rw [kwMatches_congr (normalize_text_eq_of_normKW hnx), hpkw] at hq2
          exact Bool.false_ne_true hq2
        rw [hcount, Nat.add_zero] at hcs'
        have hmono : (calculate_score f0 kws (kw :: dw) : ℤ)
            ≤ (calculate_score f0 kws dw : ℤ) := by
          rw [hcs, hcs']
          apply score_floor_mono
          have hb : 0 < wSum ((dw.map normKW).toFinset) kws
              + kws.countP (fun x => decide (normKW x = normKW kw)
                && !decide (normKW x ∈ (dw.map normKW).toFinset)) := by omega
          rw [div_le_div_iff₀ (by exact_mod_cast hb) (by exact_mod_cast htw)]
          have hkey : wSum ((dw.map normKW).toFinset) f0
              * wSum ((dw.map normKW).toFinset) kws
            ≤ wSum ((dw.map normKW).toFinset) f0
              * (wSum ((dw.map normKW).toFinset) kws
                + kws.countP (fun x => decide (normKW x = normKW kw)
                  && !decide (normKW x ∈ (dw.map normKW).toFinset))) :=
            Nat.mul_le_mul_left _ (Nat.le_add_right _ _)
          exact_mod_cast hkey
        exact_mod_cast hmono

/-- Witness for C7 at a concrete analyze run. -/
theorem C7_double_weight_monotone_witness :
    ((str "a") ∈ [str "a", str "b"] →
      66 ≤ calculate_score [str "a", str "b"] [str "a", str "b", str "c"] [str "a"]) ∧
      ((str "a") ∈ [str "c"] →
        calculate_score [str "a", str "b"] [str "a", str "b", str "c"] [str "a"] ≤ 66) :=
  C7_double_weight_monotone (str "a b") (str "a") [str "a", str "b", str "c"] []
    [str "a", str "b"] [str "c"] 66 (by decide)

